import Mathlib

/-!
A shallow embedding, in Lean 4, of the core algorithmic components of the
`criismoraD/trading-bot` repository:

* `src/fibonacci.py` — ZigZag pivot detection (`calculate_zigzag`), swing
  search (`find_valid_fibonacci_swing`) and the trading-case classifier
  (`determine_trading_case`);
* `src/paper_trading.py` — the simulated account ledger
  (`PaperTradingAccount`): order placement, limit fills, pending-order
  cancellation, position closing;
* `src/bot.py` — the per-tick evaluation order of the main loop.

Prices and monetary amounts are modelled as rationals (`ℚ`); Python dicts
keyed by order id are modelled as association-style lists of records carrying
their key, with `del` rendered as a key filter and insertion as
replace-or-append.  Logging, JSON persistence, wall-clock timestamps other
than the explicit `opened_at`/`now` values, Telegram notifications and the
purely informational statistics fields are omitted: they do not feed back
into the ledger arithmetic or the control flow modelled here.

Configuration: the repository ships no `shared_config.json` next to the
sources, so every `_shared_config.get(...)`/`shared_config.json` read falls
back to the hard-coded defaults; those defaults appear below as constants.
-/

namespace TradingBot

/-- A candle `{time, open, high, low, close}` (`volume` is never read by the
code modelled here). -/
structure Candle where
  time : ℤ
  «open» : ℚ
  high : ℚ
  low : ℚ
  close : ℚ
  deriving DecidableEq, Repr

/-- The `type` field of a pivot: `'high'` or `'low'`. -/
inductive PivotType where
  | high
  | low
  deriving DecidableEq, Repr

/-- `ZigZagPoint` from `src/fibonacci.py`. -/
structure ZigZagPoint where
  index : ℕ
  time : ℤ
  price : ℚ
  type : PivotType
  deriving DecidableEq, Repr

/-- The transient pivot dicts `{"index": _, "price": _, "type": _}` used
inside `calculate_zigzag` before conversion to `ZigZagPoint`. -/
structure Pivot where
  index : ℕ
  price : ℚ
  type : PivotType
  deriving DecidableEq, Repr

/-- `FibonacciSwing` from `src/fibonacci.py`. -/
structure FibonacciSwing where
  high : ZigZagPoint
  low : ZigZagPoint
  levels : List (String × ℚ)
  is_valid : Bool := true
  current_candle_at_55 : Bool := false
  min_valid_case : ℕ := 1
  path : ℕ := 1
  deriving DecidableEq, Repr

/-! ### Configuration defaults

`src/config.py` and the head of `src/fibonacci.py` read `shared_config.json`
and fall back to these values when the file is absent (it is absent in this
repository). -/

def CASE_1_MIN : ℚ := 55/100
def CASE_1_MAX : ℚ := 618/1000
def CASE_2_MIN : ℚ := 618/1000
def CASE_2_MAX : ℚ := 69/100
def CASE_3_MIN : ℚ := 69/100
def CASE_3_MAX : ℚ := 75/100
def CASE_4_MIN : ℚ := 75/100
def CASE_4_MAX : ℚ := 90/100

def INITIAL_BALANCE : ℚ := 30
def LEVERAGE : ℚ := 10
def MIN_AVAILABLE_MARGIN : ℚ := 3

/-- `FIBONACCI_LEVELS` default dict from `src/config.py`. -/
def FIBONACCI_LEVELS : List (String × ℚ) :=
  [("0", 0), ("23.6", 236/1000), ("38.2", 382/1000), ("50", 1/2),
   ("55", 55/100), ("58", 58/100), ("60", 60/100), ("61.8", 618/1000),
   ("69", 69/100), ("75", 75/100), ("78.6", 786/1000), ("90", 90/100),
   ("100", 1)]

/-- One entry of `ZIGZAG_CONFIGS`: `deviation` (percent), `depth`,
`backstep` (the last is never read). -/
structure ZigZagConfig where
  deviation : ℚ
  depth : ℕ
  backstep : ℕ
  deriving DecidableEq, Repr

/-- `ZIGZAG_CONFIGS` from `src/config.py`. -/
def ZIGZAG_CONFIGS : List (String × ZigZagConfig) :=
  [("1m", ⟨3/10, 5, 2⟩), ("5m", ⟨1/2, 5, 2⟩), ("15m", ⟨1, 5, 2⟩),
   ("1h", ⟨2, 8, 3⟩), ("2h", ⟨5/2, 9, 3⟩), ("4h", ⟨3, 10, 3⟩),
   ("1d", ⟨5, 10, 3⟩)]

/-- `get_zigzag_config`: dict lookup with fallback to the `"1h"` entry. -/
def get_zigzag_config (timeframe : String) : ZigZagConfig :=
  (ZIGZAG_CONFIGS.lookup timeframe).getD ⟨2, 8, 3⟩

/-- `calculate_fibonacci_levels`: `low + range * ratio` for each configured
level. -/
def calculate_fibonacci_levels (high_price low_price : ℚ) :
    List (String × ℚ) :=
  FIBONACCI_LEVELS.map (fun nr => (nr.1, low_price + (high_price - low_price) * nr.2))

/-! ### `calculate_zigzag` (`src/fibonacci.py`, lines 59–192) -/

/-- `data[k]` (all index arithmetic in the source stays in range; a zero
candle is the out-of-range default). -/
def getC (data : List Candle) (k : ℕ) : Candle :=
  data.getD k ⟨0, 0, 0, 0, 0⟩

/-- Phase 1: every candle index `i ∈ [depth, len-2]` whose high (resp. low)
is the strict extremum of the window `[max 0 (i-depth), min len (i+depth+1))`
yields a potential pivot; a high pivot is appended before a low pivot for the
same index, as in the source. -/
def zigzag_phase1 (data : List Candle) (depth : ℕ) : List Pivot :=
  (List.range' depth (data.length - 1 - depth)).foldr
    (fun i acc =>
      let window := (List.range' (i - depth)
        (min data.length (i + depth + 1) - (i - depth))).filter (fun j => j ≠ i)
      let is_high := window.all (fun j => decide ((getC data j).high < (getC data i).high))
      let is_low := window.all (fun j => decide ((getC data i).low < (getC data j).low))
      (if is_high then [⟨i, (getC data i).high, .high⟩] else []) ++
      (if is_low then [⟨i, (getC data i).low, .low⟩] else []) ++ acc)
    []

/-- Python's `max(candidates, key=f)`: the first candidate attaining the
maximum (a later candidate replaces only on strictly greater key). -/
def argmax_key (f : ℕ → ℚ) : List ℕ → ℕ
  | [] => 0
  | b :: rest => rest.foldl (fun best x => if f best < f x then x else best) b

/-- Python's `min(candidates, key=f)`: first candidate attaining the
minimum. -/
def argmin_key (f : ℕ → ℚ) : List ℕ → ℕ
  | [] => 0
  | b :: rest => rest.foldl (fun best x => if f x < f best then x else best) b

/-- The "extremes of the trailing candles" step: find the first index of the
maximal high and of the minimal low within the last `min depth (len-1)`
candles and append the corresponding pivots when not already present. -/
def zigzag_add_last_extremes (data : List Candle) (depth : ℕ)
    (potential_pivots : List Pivot) : List Pivot :=
  let last_n := min depth (data.length - 1)
  if 0 < last_n then
    let base := data.length - last_n
    let last_section := data.drop base
    let max_idx := base + argmax_key (fun x => (getC last_section x).high)
      (List.range last_section.length)
    let min_idx := base + argmin_key (fun x => (getC last_section x).low)
      (List.range last_section.length)
    let withMax :=
      if potential_pivots.any (fun p => p.index = max_idx ∧ p.type = .high) then
        potential_pivots
      else potential_pivots ++ [⟨max_idx, (getC data max_idx).high, .high⟩]
    if withMax.any (fun p => p.index = min_idx ∧ p.type = .low) then withMax
    else withMax ++ [⟨min_idx, (getC data min_idx).low, .low⟩]
  else potential_pivots

/-- Loop state of Phase 2: the zigzag built so far (most recent pivot first)
together with the source's `last_type`/`last_price` variables (`None` before
the first pivot is accepted). -/
structure Phase2State where
  rev : List Pivot
  last_type : Option PivotType
  last_price : Option ℚ
  deriving Repr

/-- One iteration of the Phase 2 loop. -/
def zigzag_phase2_step (deviation : ℚ) (st : Phase2State) (pivot : Pivot) :
    Phase2State :=
  match st.rev with
  | [] => ⟨[pivot], some pivot.type, some pivot.price⟩
  | zlast :: ztail =>
    if some pivot.type = st.last_type then
      -- same type as the last accepted pivot: keep the more extreme one
      if st.last_type = some .high ∧ zlast.price < pivot.price then
        ⟨pivot :: ztail, st.last_type, some pivot.price⟩
      else if st.last_type = some .low ∧ pivot.price < zlast.price then
        ⟨pivot :: ztail, st.last_type, some pivot.price⟩
      else st
    else
      match st.last_price with
      | none => st  -- unreachable: `last_price` is set whenever `rev ≠ []`
      | some lp =>
        let price_change := |pivot.price - lp| / lp
        if deviation ≤ price_change then
          ⟨pivot :: zlast :: ztail, some pivot.type, some pivot.price⟩
        else
          -- not enough deviation: possibly improve the pivot two back
          match ztail with
          | [] => st
          | z2 :: zrest =>
            if z2.type = pivot.type then
              if pivot.type = .high ∧ z2.price < pivot.price then
                ⟨zlast :: pivot :: zrest, st.last_type, st.last_price⟩
              else if pivot.type = .low ∧ pivot.price < z2.price then
                ⟨zlast :: pivot :: zrest, st.last_type, st.last_price⟩
              else st
            else st

/-- Phase 2: fold the sorted potential pivots, alternating types and
enforcing the minimum deviation. -/
def zigzag_phase2 (deviation : ℚ) (pivots : List Pivot) : List Pivot :=
  (pivots.foldl (zigzag_phase2_step deviation) ⟨[], none, none⟩).rev.reverse

/-- One iteration of the Phase 3 loop (accumulator holds the result with the
most recent pivot first). -/
def zigzag_phase3_step (rev : List Pivot) (pivot : Pivot) : List Pivot :=
  match rev with
  | [] => [pivot]
  | last :: tail =>
    if pivot.type ≠ last.type then pivot :: last :: tail
    else if pivot.type = .high ∧ last.price < pivot.price then pivot :: tail
    else if pivot.type = .low ∧ pivot.price < last.price then pivot :: tail
    else last :: tail

/-- Phase 3: force strict High/Low alternation, keeping the more extreme of
consecutive same-type pivots. -/
def zigzag_phase3 (pivots : List Pivot) : List Pivot :=
  (pivots.foldl zigzag_phase3_step []).reverse

/-- `calculate_zigzag` from `src/fibonacci.py`. -/
def calculate_zigzag (candle_data : List Candle) (timeframe : String := "1h") :
    List ZigZagPoint :=
  let config := get_zigzag_config timeframe
  let deviation := config.deviation / 100
  let depth := config.depth
  let data := candle_data
  if data.length < depth * 2 then []
  else
    let potential_pivots :=
      zigzag_add_last_extremes data depth (zigzag_phase1 data depth)
    if potential_pivots = [] then []
    else
      let sorted := potential_pivots.mergeSort (fun a b => a.index ≤ b.index)
      let final_zigzag := zigzag_phase3 (zigzag_phase2 deviation sorted)
      final_zigzag.map (fun p =>
        ⟨p.index, (getC data p.index).time, p.price, p.type⟩)

/-! ### `find_valid_fibonacci_swing` (`src/fibonacci.py`, lines 206–444) -/

/-- The source's "find the real Low" loop: first index (and its low price) of
the strictly smallest candle low over Python's `range(a, b+1)`; `none` when
the range is empty (`lowest_price` stays `inf`). -/
def find_lowest (data : List Candle) (a b : ℕ) : Option (ℕ × ℚ) :=
  (List.range' a (b + 1 - a)).foldl
    (fun acc k =>
      match acc with
      | none => some (k, (getC data k).low)
      | some jp => if (getC data k).low < jp.2 then some (k, (getC data k).low) else acc)
    none

/-- `any(data[k]["high"] >= lvl for k in range(a, b))` — the shape of every
level-touch scan in the swing finder. -/
def any_high_ge (data : List Candle) (a b : ℕ) (lvl : ℚ) : Bool :=
  (List.range' a (b - a)).any (fun k => decide (lvl ≤ (getC data k).high))

/-- Python's `max(points, key=lambda p: p.index)`: first point attaining the
maximal index. -/
def max_by_index : List ZigZagPoint → ZigZagPoint
  | [] => ⟨0, 0, 0, .high⟩  -- unreachable: the caller checks `length ≥ 2`
  | b :: rest => rest.foldl (fun best p => if best.index < p.index then p else best) b

/-- The Path-1 loop of `find_valid_fibonacci_swing`: try each working High in
order, `continue` on every failed check, stop at the first success. -/
def path1_search (data : List Candle) (last_candle_index : ℕ)
    (current_price : ℚ) : List ZigZagPoint → Option FibonacciSwing
  | [] => none
  | current_high :: rest =>
    let next := path1_search data last_candle_index current_price rest
    if last_candle_index ≤ current_high.index then next
    else
      match find_lowest data (current_high.index + 1) last_candle_index with
      | none => next
      | some (lowest_index, lowest_price) =>
        let lowest_low : ZigZagPoint :=
          ⟨lowest_index, (getC data lowest_index).time, lowest_price, .low⟩
        let range_val := current_high.price - lowest_low.price
        if range_val ≤ 0 then next
        else
          let fib_618_level := lowest_low.price + range_val * (618/1000)
          let fib_786_level := lowest_low.price + range_val * (786/1000)
          let fib_90_level := lowest_low.price + range_val * (90/100)
          if any_high_ge data (lowest_low.index + 1) (last_candle_index + 1)
              fib_90_level then
            next  -- 90% touched: swing invalidated, try the next High
          else
            let exclude_from_index := max (lowest_low.index + 1) (last_candle_index - 2)
            let has_touched_786 :=
              any_high_ge data (lowest_low.index + 1) exclude_from_index fib_786_level
            let has_touched_618 :=
              any_high_ge data (lowest_low.index + 1) exclude_from_index fib_618_level
            let min_valid_case : ℕ :=
              if has_touched_786 then 4 else if has_touched_618 then 3 else 1
            let level_case1_min := lowest_low.price + range_val * CASE_1_MIN
            if has_touched_618 ∧ current_price < level_case1_min then next
            else
              some ⟨current_high, lowest_low,
                calculate_fibonacci_levels current_high.price lowest_low.price,
                true, false, min_valid_case, 1⟩

/-- The Path-2 loop: scan the remaining working Highs for an alternative
Case-1 swing whose 61.8% level is untouched and above the current price. -/
def path2_search (data : List Candle) (last_candle_index : ℕ)
    (current_price : ℚ) : List ZigZagPoint → Option FibonacciSwing
  | [] => none
  | alt_high :: rest =>
    let next := path2_search data last_candle_index current_price rest
    if last_candle_index ≤ alt_high.index then next
    else
      match find_lowest data (alt_high.index + 1) last_candle_index with
      | none => next
      | some (alt_lowest_index, alt_lowest_price) =>
        let alt_lowest_low : ZigZagPoint :=
          ⟨alt_lowest_index, (getC data alt_lowest_index).time, alt_lowest_price, .low⟩
        let alt_range := alt_high.price - alt_lowest_low.price
        if alt_range ≤ 0 then next
        else
          let alt_fib_90 := alt_lowest_low.price + alt_range * (90/100)
          let alt_fib_618 := alt_lowest_low.price + alt_range * (618/1000)
          if any_high_ge data (alt_lowest_low.index + 1) (last_candle_index + 1)
              alt_fib_90 then
            next
          else if any_high_ge data (alt_lowest_low.index + 1) (last_candle_index + 1)
              alt_fib_618 then
            next
          else if current_price < alt_fib_618 then
            some ⟨alt_high, alt_lowest_low,
              calculate_fibonacci_levels alt_high.price alt_lowest_low.price,
              true, false, 1, 2⟩
          else next

/-- `find_valid_fibonacci_swing` from `src/fibonacci.py`. -/
def find_valid_fibonacci_swing (zigzag_points : List ZigZagPoint)
    (candle_data : List Candle) : Option (List FibonacciSwing) :=
  if zigzag_points.length < 2 ∨ candle_data.length < 2 then none
  else
    let high_points := (zigzag_points.filter (fun p => p.type = .high)).mergeSort
      (fun a b => b.index ≤ a.index)
    let low_points := (zigzag_points.filter (fun p => p.type = .low)).mergeSort
      (fun a b => b.index ≤ a.index)
    if high_points = [] ∨ low_points = [] then none
    else
      let last_candle_index := candle_data.length - 1
      let current_price := (getC candle_data last_candle_index).close
      let last_zigzag := max_by_index zigzag_points
      let skip_first_high := last_zigzag.type = .high
      let working_high_points :=
        if skip_first_high ∧ 1 < high_points.length then high_points.tail
        else high_points
      let p1 := path1_search candle_data last_candle_index current_price
        working_high_points
      let found_path1_case1 : Bool :=
        match p1 with
        | some s => decide (s.min_valid_case = 1)
        | none => false
      let path1_swings := match p1 with | some s => [s] | none => []
      let path2_swings :=
        if found_path1_case1 = false ∧ 2 ≤ working_high_points.length then
          match path2_search candle_data last_candle_index current_price
            working_high_points.tail with
          | some s => [s]
          | none => []
        else []
      let valid_swings := path1_swings ++ path2_swings
      if valid_swings = [] then none else some valid_swings

/-! ### `determine_trading_case` (`src/fibonacci.py`, lines 447–524)

`candle_data` defaults to `None` in Python; Python's truthiness test
`if candle_data and ...` is `false` both for `None` and for `[]`, which the
`Option`-plus-emptiness guard below reproduces. -/

/-- `determine_trading_case` from `src/fibonacci.py`. -/
def determine_trading_case (current_price : ℚ) (swing : FibonacciSwing)
    (candle_data : Option (List Candle) := none) (last_n_candles : ℕ := 3) : ℕ :=
  let low := swing.low.price
  let range_val := swing.high.price - swing.low.price
  if swing.path = 2 then
    -- Path 2: only case 1, zone 0% – 61.8%
    let level_618 := low + range_val * (618/1000)
    let level_invalid := low + range_val * CASE_4_MAX
    if level_invalid ≤ current_price then 0
    else if low ≤ current_price ∧ current_price < level_618 then 1
    else 0
  else
    -- Path 1: zone logic
    let level_case1_min := low + range_val * CASE_1_MIN
    let level_case2_min := low + range_val * CASE_2_MIN
    let level_case3_min := low + range_val * CASE_3_MIN
    let level_case4_min := low + range_val * CASE_4_MIN
    let level_invalid := low + range_val * CASE_4_MAX
    let level_786 := low + range_val * (786/1000)
    let level_618 := low + range_val * (618/1000)
    let detected_case : ℕ :=
      if level_invalid ≤ current_price then 0
      else if level_case4_min ≤ current_price then 4
      else if level_case3_min ≤ current_price then 3
      else if level_case2_min ≤ current_price then 2
      else if level_case1_min ≤ current_price then 1
      else 0
    if 0 < detected_case ∧ detected_case < swing.min_valid_case then 0
    else
      match candle_data with
      | some cs =>
        if cs ≠ [] ∧ (detected_case = 1 ∨ detected_case = 3) then
          let entry_level := if detected_case = 1 then level_618 else level_786
          -- the last `last_n_candles` candles, i.e. indices from
          -- `max 0 (len - n)` on
          if (cs.drop (cs.length - last_n_candles)).any
              (fun c => decide (entry_level ≤ c.high)) then
            0
          else detected_case
        else detected_case
      | none => detected_case

/-! ### The paper-trading ledger (`src/paper_trading.py`)

`PaperTradingAccount` is modelled as a record of the fields that feed the
ledger arithmetic and control flow: balance, pending orders, open positions,
the two histories and the order counter.  Python dicts keyed by order id
become insertion-ordered lists of records carrying their key; `del d[k]` is a
key filter and `d[k] = v` is replace-or-append.  Timestamps (`opened_at`,
`datetime.now()`) become explicit rational `now` parameters.  Order ids (a
timestamp string suffixed by the strictly increasing `order_counter`) become
the counter value itself.  `executions`, `created_at`, equity history, stats
counters, JSON persistence and notifications are omitted: none of them is
read back by the modelled logic. -/

/-- `MAKER_FEE` — 0.02 % for limit orders. -/
def MAKER_FEE : ℚ := 2/10000
/-- `TAKER_FEE` — 0.055 % for market orders. -/
def TAKER_FEE : ℚ := 55/100000

inductive OrderSide where
  | BUY
  | SELL
  deriving DecidableEq, Repr

inductive OrderType where
  | MARKET
  | LIMIT
  deriving DecidableEq, Repr

inductive OrderStatus where
  | PENDING
  | FILLED
  | CANCELLED
  deriving DecidableEq, Repr

inductive PositionSide where
  | LONG
  | SHORT
  deriving DecidableEq, Repr

/-- `Order` from `src/paper_trading.py`. -/
structure Order where
  id : ℕ
  symbol : String
  side : OrderSide
  order_type : OrderType
  quantity : ℚ
  price : ℚ
  margin : ℚ
  leverage : ℚ
  take_profit : ℚ
  stop_loss : Option ℚ := none
  status : OrderStatus := .PENDING
  strategy_case : ℕ := 0
  fib_high : Option ℚ := none
  fib_low : Option ℚ := none
  entry_fib_level : Option ℚ := none
  current_price : ℚ := 0
  creation_price : ℚ := 0
  creation_fib_level : Option ℚ := none
  deriving DecidableEq, Repr

/-- `Position` from `src/paper_trading.py`. -/
structure Position where
  symbol : String
  side : PositionSide
  entry_price : ℚ
  quantity : ℚ
  margin : ℚ
  leverage : ℚ
  take_profit : ℚ
  stop_loss : Option ℚ := none
  order_id : ℕ := 0
  strategy_case : ℕ := 0
  fib_high : Option ℚ := none
  fib_low : Option ℚ := none
  entry_fib_level : Option ℚ := none
  creation_fib_level : Option ℚ := none
  opened_at : ℚ := 0
  deriving DecidableEq, Repr

/-- The immutable record appended to `trade_history` by `_close_position`
(the fields the invariants read). -/
structure TradeRecord where
  order_id : ℕ
  symbol : String
  side : PositionSide
  entry_price : ℚ
  close_price : ℚ
  quantity : ℚ
  margin : ℚ
  pnl : ℚ
  strategy_case : ℕ
  reason : String
  deriving DecidableEq, Repr

/-- The record appended to `cancelled_history`: the cancelled order's dict
plus the cancellation reason. -/
structure CancelRecord where
  order : Order
  cancel_reason : String
  deriving DecidableEq, Repr

/-- The state of a `PaperTradingAccount`. -/
structure Account where
  initial_balance : ℚ
  balance : ℚ
  leverage : ℚ
  pending_orders : List Order
  open_positions : List Position
  trade_history : List TradeRecord
  cancelled_history : List CancelRecord
  order_counter : ℕ
  deriving Repr

/-- `PaperTradingAccount.__init__` (after `_load_trades`, which always resets
to a clean ledger at the initial balance). -/
def mkAccount (initial_balance leverage : ℚ) : Account :=
  ⟨initial_balance, initial_balance, leverage, [], [], [], [], 0⟩

/-- `get_available_margin`. -/
def Account.get_available_margin (a : Account) : ℚ :=
  a.balance -
    ((a.open_positions.map (fun p => p.margin)).sum +
     (a.pending_orders.map (fun o => o.margin)).sum)

/-- The pure value computed by `Position.calculate_pnl`. -/
def Position.calculate_pnl (pos : Position) (current_price : ℚ) : ℚ :=
  if pos.side = .SHORT then (pos.entry_price - current_price) * pos.quantity
  else (current_price - pos.entry_price) * pos.quantity

/-- `Position.check_take_profit`. -/
def Position.check_take_profit (pos : Position) (current_price : ℚ) : Bool :=
  if pos.side = .SHORT then current_price ≤ pos.take_profit
  else pos.take_profit ≤ current_price

/-- The stop-loss price used by `Position.check_stop_loss`: the stored value,
or — when absent and both swing bounds are truthy (non-`None`, non-zero) —
the per-case default ratio of the swing range. -/
def Position.sl_price (pos : Position) : Option ℚ :=
  match pos.stop_loss with
  | some s => some s
  | none =>
    match pos.fib_high, pos.fib_low with
    | some H, some L =>
      if H ≠ 0 ∧ L ≠ 0 then
        let range_val := H - L
        let «case» := if pos.strategy_case = 11 then 1 else pos.strategy_case
        let sl_ratio : ℚ :=
          if «case» = 1 then 110/100 else if «case» = 2 then 110/100
          else if «case» = 3 then 94/100 else if «case» = 4 then 93/100
          else 110/100
        some (L + range_val * sl_ratio)
      else none
    | _, _ => none

/-- `Position.check_stop_loss`. -/
def Position.check_stop_loss (pos : Position) (current_price : ℚ) : Bool :=
  match pos.sl_price with
  | none => false
  | some sl =>
    if pos.side = .SHORT then sl ≤ current_price else current_price ≤ sl

/-- Python dict insertion `open_positions[order_id] = position`: replace in
place when the key exists, append otherwise. -/
def upsert_position (l : List Position) (p : Position) : List Position :=
  if l.any (fun q => q.order_id = p.order_id) then
    l.map (fun q => if q.order_id = p.order_id then p else q)
  else l ++ [p]

/-- The guarded fib-fraction computation shared by the placement functions:
`(price - fib_low) / fib_range` when both bounds are present and the range is
positive, `None` otherwise. -/
def fib_level_of (price : ℚ) (fib_high fib_low : Option ℚ) : Option ℚ :=
  match fib_high, fib_low with
  | some H, some L => if 0 < H - L then some ((price - L) / (H - L)) else none
  | _, _ => none

/-- `place_limit_order`: returns the created order (`none` on rejection) and
the updated account. -/
def place_limit_order (a : Account) (symbol : String) (side : OrderSide)
    (price margin take_profit : ℚ) (stop_loss : Option ℚ := none)
    (strategy_case : ℕ := 0) (fib_high : Option ℚ := none)
    (fib_low : Option ℚ := none) (entry_fib_level : Option ℚ := none)
    (current_price : Option ℚ := none) : Option Order × Account :=
  if a.get_available_margin < MIN_AVAILABLE_MARGIN then (none, a)
  else
    let notional_value := margin * a.leverage
    let quantity := notional_value / price
    let entry_fib_level' :=
      match entry_fib_level with
      | none => fib_level_of price fib_high fib_low
      | some e => some e
    let creation_fib_level :=
      match current_price with
      | some cp => fib_level_of cp fib_high fib_low
      | none => none
    let order : Order :=
      { id := a.order_counter + 1, symbol, side, order_type := .LIMIT,
        quantity, price, margin, leverage := a.leverage, take_profit,
        stop_loss, strategy_case, fib_high, fib_low,
        entry_fib_level := entry_fib_level',
        creation_price := current_price.getD 0, creation_fib_level }
    (some order,
      { a with pending_orders := a.pending_orders ++ [order],
               order_counter := a.order_counter + 1 })

/-- `place_market_order`: returns the created position (`none` on rejection)
and the updated account; debits the taker commission on creation. -/
def place_market_order (a : Account) (symbol : String) (side : OrderSide)
    (current_price margin take_profit : ℚ) (now : ℚ)
    (stop_loss : Option ℚ := none) (strategy_case : ℕ := 0)
    (fib_high : Option ℚ := none) (fib_low : Option ℚ := none)
    (entry_fib_level : Option ℚ := none) : Option Position × Account :=
  if a.get_available_margin < MIN_AVAILABLE_MARGIN then (none, a)
  else
    let quantity := margin * a.leverage / current_price
    let entry_fib_level' :=
      match entry_fib_level with
      | none => fib_level_of current_price fib_high fib_low
      | some e => some e
    let order_id := a.order_counter + 1
    let position_side := if side = .SELL then PositionSide.SHORT else .LONG
    let position : Position :=
      { symbol, side := position_side, entry_price := current_price, quantity,
        margin, leverage := a.leverage, take_profit, stop_loss, order_id,
        strategy_case, fib_high, fib_low, entry_fib_level := entry_fib_level',
        creation_fib_level := entry_fib_level', opened_at := now }
    let fee := quantity * current_price * TAKER_FEE
    (some position,
      { a with open_positions := upsert_position a.open_positions position,
               balance := a.balance - fee,
               order_counter := order_id })

/-- The filled position's `entry_fib_level`: recomputed at the fill price
when both swing bounds are truthy and the range is non-zero, otherwise
inherited from the order. -/
def fill_entry_fib (order : Order) (fill_price : ℚ) : Option ℚ :=
  match order.fib_high, order.fib_low with
  | some H, some L =>
    if H ≠ 0 ∧ L ≠ 0 ∧ H - L ≠ 0 then some ((fill_price - L) / (H - L))
    else order.entry_fib_level
  | _, _ => order.entry_fib_level

/-- `_fill_order`: pop the pending order, open a position at the fill price,
debit the maker commission. -/
def fill_order (a : Account) (order_id : ℕ) (fill_price now : ℚ) : Account :=
  match a.pending_orders.find? (fun o => o.id = order_id) with
  | none => a
  | some order =>
    let pending' := a.pending_orders.filter (fun o => o.id ≠ order_id)
    let position_side := if order.side = .SELL then PositionSide.SHORT else .LONG
    let entry_fib := fill_entry_fib order fill_price
    let position : Position :=
      { symbol := order.symbol, side := position_side,
        entry_price := fill_price, quantity := order.quantity,
        margin := order.margin, leverage := order.leverage,
        take_profit := order.take_profit, stop_loss := order.stop_loss,
        order_id, strategy_case := order.strategy_case,
        fib_high := order.fib_high, fib_low := order.fib_low,
        entry_fib_level := entry_fib,
        creation_fib_level := order.creation_fib_level, opened_at := now }
    let fee := position.quantity * fill_price * MAKER_FEE
    { a with pending_orders := pending',
             open_positions := upsert_position a.open_positions position,
             balance := a.balance - fee }

/-- The closing commission rate of `_close_position`: maker for cases 1, 3
and 11 (the limit-entered cases), taker otherwise. -/
def Position.closing_fee_rate (position : Position) : ℚ :=
  if position.strategy_case = 1 ∨ position.strategy_case = 3 ∨
      position.strategy_case = 11 then MAKER_FEE
  else TAKER_FEE

/-- `_close_position`: pop the position, realize its P&L into the balance,
debit the closing commission, append the trade record. -/
def close_position (a : Account) (order_id : ℕ) (close_price : ℚ)
    (reason : String) : Account :=
  match a.open_positions.find? (fun p => p.order_id = order_id) with
  | none => a
  | some position =>
    let positions' := a.open_positions.filter (fun p => p.order_id ≠ order_id)
    let pnl := position.calculate_pnl close_price
    let closing_fee := position.quantity * close_price * position.closing_fee_rate
    let record : TradeRecord :=
      { order_id, symbol := position.symbol, side := position.side,
        entry_price := position.entry_price, close_price,
        quantity := position.quantity, margin := position.margin, pnl,
        strategy_case := position.strategy_case, reason }
    { a with open_positions := positions',
             balance := a.balance + pnl - closing_fee,
             trade_history := a.trade_history ++ [record] }

/-- Which positions `check_positions` decides to close for a tick: the
symbol's positions past the 1-second cool-down whose TP (checked first) or SL
is touched, captured together with the close reason. -/
def positions_to_close (a : Account) (symbol : String)
    (current_price now : ℚ) : List (Position × String) :=
  a.open_positions.filterMap (fun pos =>
    if pos.symbol ≠ symbol then none
    else if now - pos.opened_at < 1 then none  -- COOLDOWN_SECONDS = 1
    else if pos.check_take_profit current_price then some (pos, "TP")
    else if pos.check_stop_loss current_price then some (pos, "SL")
    else none)

/-- Executing one entry of `positions_to_close`. -/
def close_position_step (current_price : ℚ) (acc : Account)
    (pr : Position × String) : Account :=
  close_position acc pr.1.order_id current_price pr.2

/-- `check_positions`: evaluate TP/SL on the tick, then close each selected
position at the tick price. -/
def check_positions (a : Account) (symbol : String) (current_price now : ℚ) :
    Account :=
  (positions_to_close a symbol current_price now).foldl
    (close_position_step current_price) a

/-- The per-order decision of `check_pending_orders`: cancellation (checked
first, with the config-default thresholds 38.2 % for case 1 and 50 % for
case 3) takes precedence over the limit-fill test. -/
inductive OrderAction where
  | FILL
  | CANCEL (reason : String)
  deriving DecidableEq, Repr

/-- `c1_cancel_below` default. -/
def cancel_c1 : ℚ := 382/1000
/-- `c3_cancel_below` default. -/
def cancel_c3 : ℚ := 1/2

/-- The automatic-cancellation test of `check_pending_orders`: when the
order's swing bounds are truthy and the range positive, a case-1 order whose
current fib fraction is ≤ 38.2 % (resp. a case-3 order ≤ 50 %) is cancelled
with the corresponding reason string. -/
def order_cancel_reason (o : Order) (current_price : ℚ) : Option String :=
  match o.fib_high, o.fib_low with
  | some H, some L =>
    if H ≠ 0 ∧ L ≠ 0 then
      let fib_range := H - L
      if 0 < fib_range then
        let current_fib := (current_price - L) / fib_range
        if o.strategy_case = 1 ∧ current_fib ≤ cancel_c1 then
          some "Precio tocó 38.2% (C1 anulado)"
        else if o.strategy_case = 3 ∧ current_fib ≤ cancel_c3 then
          some "Precio tocó 50.0% (C3 anulado)"
        else none
      else none
    else none
  | _, _ => none

/-- The action `check_pending_orders` selects for one pending order of the
ticked symbol (`none` when the order neither cancels nor fills). -/
def order_tick_action (o : Order) (current_price : ℚ) : Option OrderAction :=
  match order_cancel_reason o current_price with
  | some r => some (.CANCEL r)
  | none =>
    if o.side = .SELL ∧ o.order_type = .LIMIT ∧ o.price ≤ current_price then
      some .FILL
    else if o.side = .BUY ∧ o.order_type = .LIMIT ∧ current_price ≤ o.price then
      some .FILL
    else none

/-- The `orders_to_fill` list built by the scan phase of
`check_pending_orders` (order values captured with their live
`current_price` already updated). -/
def orders_to_fill (pending : List Order) (symbol : String)
    (current_price : ℚ) : List (Order × OrderAction) :=
  pending.filterMap (fun o =>
    if o.symbol = symbol then
      (order_tick_action o current_price).map (fun act => (o, act))
    else none)

/-- Executing one entry of `orders_to_fill`: fill through `_fill_order`, or
cancel — removing the order (when still pending) and appending the cancel
record. -/
def pending_order_step (current_price now : ℚ) (acc : Account)
    (oa : Order × OrderAction) : Account :=
  match oa.2 with
  | .FILL => fill_order acc oa.1.id current_price now
  | .CANCEL reason =>
    if acc.pending_orders.any (fun o => o.id = oa.1.id) then
      { acc with
        pending_orders := acc.pending_orders.filter (fun o => o.id ≠ oa.1.id),
        cancelled_history := acc.cancelled_history ++
          [⟨{ oa.1 with status := .CANCELLED }, reason⟩] }
    else acc

/-- `check_pending_orders`: update each pending order's informational
`current_price`, decide cancellations/fills, then execute them outside the
scan loop. -/
def check_pending_orders (a : Account) (symbol : String)
    (current_price now : ℚ) : Account :=
  let pending' := a.pending_orders.map (fun o =>
    if o.symbol = symbol then { o with current_price := current_price } else o)
  let acts := orders_to_fill pending' symbol current_price
  acts.foldl (pending_order_step current_price now)
    { a with pending_orders := pending' }

/-- The per-symbol tick body of `main` in `src/bot.py` (lines 898–908, and
identically lines 634–637 and `scanner.py` lines 254–257): check positions
first, then pending orders, each guarded by non-emptiness. -/
def main_symbol_tick (a : Account) (symbol : String) (price now : ℚ) :
    Account :=
  let a1 := if a.open_positions.isEmpty then a
    else check_positions a symbol price now
  if a1.pending_orders.isEmpty then a1
  else check_pending_orders a1 symbol price now

/-! ### Ledger event traces

A trace of the public ledger operations, for stating invariants over "any
sequence of ledger operations": placements plus the two tick checks (fills
and closes happen inside the latter). -/

/-- The keyword arguments of a `place_limit_order` call. -/
structure LimitParams where
  symbol : String
  side : OrderSide
  price : ℚ
  margin : ℚ
  take_profit : ℚ
  stop_loss : Option ℚ := none
  strategy_case : ℕ := 0
  fib_high : Option ℚ := none
  fib_low : Option ℚ := none
  entry_fib_level : Option ℚ := none
  current_price : Option ℚ := none

/-- The keyword arguments of a `place_market_order` call. -/
structure MarketParams where
  symbol : String
  side : OrderSide
  current_price : ℚ
  margin : ℚ
  take_profit : ℚ
  now : ℚ
  stop_loss : Option ℚ := none
  strategy_case : ℕ := 0
  fib_high : Option ℚ := none
  fib_low : Option ℚ := none
  entry_fib_level : Option ℚ := none

/-- One public ledger operation. -/
inductive LedgerEvent where
  | placeLimit (p : LimitParams)
  | placeMarket (p : MarketParams)
  | checkPositions (symbol : String) (price now : ℚ)
  | checkPendingOrders (symbol : String) (price now : ℚ)

/-- Run one ledger operation (dropping the returned order/position). -/
def applyEvent (a : Account) : LedgerEvent → Account
  | .placeLimit p =>
    (place_limit_order a p.symbol p.side p.price p.margin p.take_profit
      p.stop_loss p.strategy_case p.fib_high p.fib_low p.entry_fib_level
      p.current_price).2
  | .placeMarket p =>
    (place_market_order a p.symbol p.side p.current_price p.margin
      p.take_profit p.now p.stop_loss p.strategy_case p.fib_high p.fib_low
      p.entry_fib_level).2
  | .checkPositions symbol price now => check_positions a symbol price now
  | .checkPendingOrders symbol price now =>
    check_pending_orders a symbol price now

/-- Run a trace of ledger operations. -/
def applyEvents (a : Account) (es : List LedgerEvent) : Account :=
  es.foldl applyEvent a

/-- The commissions one operation debits from the balance: the taker fee of
a successful market placement, the maker fees of the limit fills a tick
triggers, and the closing fees of the positions a tick closes. -/
def feesOf (a : Account) : LedgerEvent → ℚ
  | .placeLimit _ => 0
  | .placeMarket p =>
    if a.get_available_margin < MIN_AVAILABLE_MARGIN then 0
    else (p.margin * a.leverage / p.current_price) * p.current_price * TAKER_FEE
  | .checkPositions symbol price now =>
    ((positions_to_close a symbol price now).map
      (fun pr => pr.1.quantity * price * pr.1.closing_fee_rate)).sum
  | .checkPendingOrders symbol price _ =>
    let pending' := a.pending_orders.map (fun o =>
      if o.symbol = symbol then { o with current_price := price } else o)
    ((orders_to_fill pending' symbol price).map (fun oa =>
      match oa.2 with
      | .FILL => oa.1.quantity * price * MAKER_FEE
      | .CANCEL _ => 0)).sum

/-- The realized P&L one operation adds to the balance (only position closes
realize P&L). -/
def pnlOf (a : Account) : LedgerEvent → ℚ
  | .checkPositions symbol price now =>
    ((positions_to_close a symbol price now).map
      (fun pr => pr.1.calculate_pnl price)).sum
  | _ => 0

/-- Total commissions debited along a trace. -/
def totalFees (a : Account) : List LedgerEvent → ℚ
  | [] => 0
  | e :: es => feesOf a e + totalFees (applyEvent a e) es

/-- Sum of the realized `pnl` fields over a trade history. -/
def sumPnl (h : List TradeRecord) : ℚ := (h.map (fun t => t.pnl)).sum

/-- The dictionary keys of the account: pending-order ids followed by
open-position ids. -/
def Account.keyIds (a : Account) : List ℕ :=
  a.pending_orders.map (fun o => o.id) ++
    a.open_positions.map (fun p => p.order_id)

/-- Well-formedness: dictionary keys are pairwise distinct and were all
issued by the order counter.  It holds for a fresh account and is preserved
by every ledger operation. -/
def Wf (a : Account) : Prop :=
  a.keyIds.Nodup ∧ ∀ i ∈ a.keyIds, i ≤ a.order_counter

/-! ## Theorems about the classifier (claims C1, C2, C7) -/

/-- A Path-1 swing High 100 → Low 0 with `min_valid_case = 1`, used as a
concrete input to the classifier. -/
def swing100 : FibonacciSwing :=
  ⟨⟨10, 1000, 100, .high⟩, ⟨20, 2000, 0, .low⟩,
   calculate_fibonacci_levels 100 0, true, false, 1, 1⟩

/-- The swing of the spec's scenario: Path 1, High 100 → Low 50,
`min_valid_case = 1`. -/
def swingHL : FibonacciSwing :=
  ⟨⟨10, 1000, 100, .high⟩, ⟨20, 2000, 50, .low⟩,
   calculate_fibonacci_levels 100 50, true, false, 1, 1⟩

/-- A Path-2 swing High 100 → Low 0. -/
def swingP2 : FibonacciSwing :=
  ⟨⟨10, 1000, 100, .high⟩, ⟨20, 2000, 0, .low⟩,
   calculate_fibonacci_levels 100 0, true, false, 1, 2⟩

/-- A recent candle whose wick reaches 80, i.e. 80 % of the `swing100`
range — above the 78.6 % entry level of case 3 but below the 90 %
invalidation level. -/
def wick80 : Candle := ⟨3000, 76, 80, 74, 75⟩

/-- C1, counterexample.  The classifier does return case 2: for the Path-1
swing High 100 → Low 0 with `min_valid_case = 1` and no recent candles, the
price 65 — inside the 61.8 %–69 % zone — yields case 2, which is outside the
claimed set `{0, 1, 3, 4}`. -/
theorem determine_trading_case_returns_case_two :
    determine_trading_case 65 swing100 none 3 = 2 ∧
    (2 : ℕ) ∉ ([0, 1, 3, 4] : List ℕ) := by
  constructor
  · norm_num [determine_trading_case, swing100, CASE_1_MIN, CASE_2_MIN,
      CASE_3_MIN, CASE_4_MIN, CASE_4_MAX]
  · decide

/-- C1, amended.  For every price, swing and (possibly absent) recent-candle
list, `determine_trading_case` returns a value in `{0, 1, 2, 3, 4}`; case 2
is still reachable (for Path-1 prices in the 61.8 %–69 % zone when
`min_valid_case ≤ 2`). -/
theorem determine_trading_case_mem_range (p : ℚ) (sw : FibonacciSwing)
    (cd : Option (List Candle)) (n : ℕ) :
    determine_trading_case p sw cd n ∈ ([0, 1, 2, 3, 4] : List ℕ) := by
  unfold determine_trading_case
  cases cd with
  | none =>
    by_cases hp : sw.path = 2
    · simp only [hp, if_true, if_pos]
      split_ifs <;> decide
    · simp only [hp, if_false, if_neg, not_false_iff]
      split_ifs <;> decide
  | some cs =>
    by_cases hp : sw.path = 2
    · simp only [hp, if_true, if_pos]
      split_ifs <;> decide
    · simp only [hp, if_false, if_neg, not_false_iff]
      split_ifs <;> decide

/-- C2, counterexample.  For the spec's scenario swing (High 100, Low 50,
Path 1, `min_valid_case = 1`) the classifier does not return case 4 at price
79: price 79 sits at 58 % of the swing range, inside the case-1 zone
55 %–61.8 %, so the result is 1. -/
theorem determine_trading_case_scenario_price79_ne_case4 :
    determine_trading_case 79 swingHL none 3 ≠ 4 := by
  norm_num [determine_trading_case, swingHL, CASE_1_MIN, CASE_2_MIN,
    CASE_3_MIN, CASE_4_MIN, CASE_4_MAX]

/-- C2, amended.  For the scenario swing High 100 → Low 50 the code returns
case 1 at price 79, and case 0 at prices 70, 60 and 95 (the spec's expected
values 4/3/1/0 arise only when the quoted prices are read as percentages of
the range, i.e. with Low = 0). -/
theorem determine_trading_case_scenario_values :
    determine_trading_case 79 swingHL none 3 = 1 ∧
    determine_trading_case 70 swingHL none 3 = 0 ∧
    determine_trading_case 60 swingHL none 3 = 0 ∧
    determine_trading_case 95 swingHL none 3 = 0 := by
  refine ⟨?_, ?_, ?_, ?_⟩ <;>
    norm_num [determine_trading_case, swingHL, CASE_1_MIN, CASE_2_MIN,
      CASE_3_MIN, CASE_4_MIN, CASE_4_MAX]

/-- C7, counterexample.  The classifier is not monotone in price inside the
58 %–90 % band.  First instance (Path 1, `min_valid_case = 1`, one recent
candle with wick at 80 % of the range): price 65 (case-2 zone, no wick check)
yields 2 while the larger price 70 (case-3 zone, wick already through the
78.6 % entry) yields 0.  Second instance (Path 2): price 60 yields 1 while
the larger price 70 — beyond 61.8 % — yields 0.  All four prices lie in the
58 %–90 % band of their swing's range. -/
theorem determine_trading_case_not_monotone :
    (determine_trading_case 65 swing100 (some [wick80]) 3 = 2 ∧
     determine_trading_case 70 swing100 (some [wick80]) 3 = 0) ∧
    (determine_trading_case 60 swingP2 none 3 = 1 ∧
     determine_trading_case 70 swingP2 none 3 = 0) := by
  refine ⟨⟨?_, ?_⟩, ?_, ?_⟩ <;>
    norm_num [determine_trading_case, swing100, swingP2, wick80, CASE_1_MIN,
      CASE_2_MIN, CASE_3_MIN, CASE_4_MIN, CASE_4_MAX]

/-- C7, amended.  For a fixed Path-1 swing and an absent recent-candle list,
`determine_trading_case` is monotone in price within the 58 %–90 % band of
the swing range: the wick check (which can void cases 1 and 3 below a
case-2 price) and the Path-2 zone logic are the only sources of
non-monotonicity. -/
theorem determine_trading_case_monotone_path1_no_candles
    (sw : FibonacciSwing) (hpath : sw.path = 1) (n : ℕ) (p1 p2 : ℚ)
    (h1l : sw.low.price + (58/100) * (sw.high.price - sw.low.price) ≤ p1)
    (h1u : p1 < sw.low.price + (90/100) * (sw.high.price - sw.low.price))
    (h2l : sw.low.price + (58/100) * (sw.high.price - sw.low.price) ≤ p2)
    (h2u : p2 < sw.low.price + (90/100) * (sw.high.price - sw.low.price))
    (hle : p1 ≤ p2) :
    determine_trading_case p1 sw none n ≤ determine_trading_case p2 sw none n := by
  have hR : 0 < sw.high.price - sw.low.price := by linarith
  have hp2 : ¬ sw.path = 2 := by omega
  have key : ∀ d1 d2 : ℕ, d1 ≤ d2 →
      (if 0 < d1 ∧ d1 < sw.min_valid_case then 0 else d1) ≤
      (if 0 < d2 ∧ d2 < sw.min_valid_case then 0 else d2) := by
    intro d1 d2 h
    split_ifs <;> omega
  unfold determine_trading_case
  simp only [if_neg hp2]
  apply key
  simp only [CASE_1_MIN, CASE_2_MIN, CASE_3_MIN, CASE_4_MIN, CASE_4_MAX] at *
  split_ifs <;> first | omega | linarith

/-- C7, witness for the amended monotonicity theorem: prices 60 and 70 on
`swing100` (both inside its 58–90 band). -/
theorem determine_trading_case_monotone_path1_no_candles_witness :
    determine_trading_case 60 swing100 none 3 ≤
      determine_trading_case 70 swing100 none 3 :=
  determine_trading_case_monotone_path1_no_candles swing100 rfl 3 60 70
    (by norm_num [swing100]) (by norm_num [swing100])
    (by norm_num [swing100]) (by norm_num [swing100]) (by norm_num)

/-! ## Theorems about order placement and available margin (claim C3) -/

/-- C3, counterexample.  A successful placement does not keep the available
margin non-negative: on a fresh account with balance 30, a limit order
requesting margin 200 is accepted (the pre-placement available margin 30 is
≥ `MIN_AVAILABLE_MARGIN` = 3, the only check) and leaves the available margin
at −170. -/
theorem place_limit_order_negative_available_margin :
    (place_limit_order (mkAccount 30 10) "BTCUSDT" .SELL 100 200 90).1.isSome ∧
    (place_limit_order (mkAccount 30 10) "BTCUSDT" .SELL 100 200 90).2.get_available_margin
      < 0 := by
  constructor <;>
    norm_num [place_limit_order, mkAccount, Account.get_available_margin,
      MIN_AVAILABLE_MARGIN]

/-- C3, amended.  A successful placement subtracts exactly the requested
margin (plus, for market orders, the taker commission) from the available
margin; hence the available margin stays ≥ 0 exactly when that total did not
exceed the pre-placement available margin — success alone only guarantees
the pre-placement available margin was ≥ `MIN_AVAILABLE_MARGIN`. -/
theorem available_margin_after_successful_placement
    (a : Account) (hwf : Wf a) (p : LimitParams) (q : MarketParams) :
    ((place_limit_order a p.symbol p.side p.price p.margin p.take_profit p.stop_loss
        p.strategy_case p.fib_high p.fib_low p.entry_fib_level p.current_price).1.isSome →
      (place_limit_order a p.symbol p.side p.price p.margin p.take_profit p.stop_loss
        p.strategy_case p.fib_high p.fib_low p.entry_fib_level
        p.current_price).2.get_available_margin
        = a.get_available_margin - p.margin) ∧
    ((place_market_order a q.symbol q.side q.current_price q.margin q.take_profit q.now
        q.stop_loss q.strategy_case q.fib_high q.fib_low q.entry_fib_level).1.isSome →
      (place_market_order a q.symbol q.side q.current_price q.margin q.take_profit q.now
        q.stop_loss q.strategy_case q.fib_high q.fib_low
        q.entry_fib_level).2.get_available_margin
        = a.get_available_margin - q.margin
          - (q.margin * a.leverage / q.current_price) * q.current_price * TAKER_FEE) ∧
    (p.margin ≤ a.get_available_margin →
      (place_limit_order a p.symbol p.side p.price p.margin p.take_profit p.stop_loss
        p.strategy_case p.fib_high p.fib_low p.entry_fib_level p.current_price).1.isSome →
      0 ≤ (place_limit_order a p.symbol p.side p.price p.margin p.take_profit p.stop_loss
        p.strategy_case p.fib_high p.fib_low p.entry_fib_level
        p.current_price).2.get_available_margin) ∧
    (q.margin + (q.margin * a.leverage / q.current_price) * q.current_price * TAKER_FEE
        ≤ a.get_available_margin →
      (place_market_order a q.symbol q.side q.current_price q.margin q.take_profit q.now
        q.stop_loss q.strategy_case q.fib_high q.fib_low q.entry_fib_level).1.isSome →
      0 ≤ (place_market_order a q.symbol q.side q.current_price q.margin q.take_profit
        q.now q.stop_loss q.strategy_case q.fib_high q.fib_low
        q.entry_fib_level).2.get_available_margin) := by
  have hlim : (place_limit_order a p.symbol p.side p.price p.margin p.take_profit
      p.stop_loss p.strategy_case p.fib_high p.fib_low p.entry_fib_level
      p.current_price).1.isSome →
      (place_limit_order a p.symbol p.side p.price p.margin p.take_profit p.stop_loss
        p.strategy_case p.fib_high p.fib_low p.entry_fib_level
        p.current_price).2.get_available_margin
        = a.get_available_margin - p.margin := by
    intro hs
    by_cases hm : a.get_available_margin < MIN_AVAILABLE_MARGIN
    · simp [place_limit_order, hm] at hs
    · simp only [place_limit_order, hm, if_false, if_neg, not_false_iff]
      simp [Account.get_available_margin]
      ring
  have hmkt : (place_market_order a q.symbol q.side q.current_price q.margin
      q.take_profit q.now q.stop_loss q.strategy_case q.fib_high q.fib_low
      q.entry_fib_level).1.isSome →
      (place_market_order a q.symbol q.side q.current_price q.margin q.take_profit q.now
        q.stop_loss q.strategy_case q.fib_high q.fib_low
        q.entry_fib_level).2.get_available_margin
        = a.get_available_margin - q.margin
          - (q.margin * a.leverage / q.current_price) * q.current_price * TAKER_FEE := by
    intro hs
    by_cases hm : a.get_available_margin < MIN_AVAILABLE_MARGIN
    · simp [place_market_order, hm] at hs
    · have hfresh : a.open_positions.any
          (fun q2 => q2.order_id = a.order_counter + 1) = false := by
        simp only [List.any_eq_false, decide_eq_true_eq]
        intro pos hpos
        have := hwf.2 pos.order_id (by
          simp [Account.keyIds]
          right
          exact ⟨pos, hpos, rfl⟩)
        omega
      simp only [place_market_order, hm, if_false, if_neg, not_false_iff]
      simp [Account.get_available_margin, upsert_position, hfresh]
      ring
  refine ⟨hlim, hmkt, ?_, ?_⟩
  · intro hmargin hs
    have := hlim hs
    linarith
  · intro hmargin hs
    have := hmkt hs
    linarith

/-- Concrete limit-order arguments for the placement witness. -/
def limitP : LimitParams :=
  { symbol := "BTCUSDT", side := .SELL, price := 10, margin := 3, take_profit := 9 }

/-- Concrete market-order arguments for the placement witness. -/
def marketP : MarketParams :=
  { symbol := "ETHUSDT", side := .SELL, current_price := 10, margin := 2,
    take_profit := 9, now := 0 }

/-- C3, witness: on a fresh balance-30 account both placements above succeed
within the available margin, which therefore stays non-negative. -/
theorem available_margin_after_successful_placement_witness :
    0 ≤ (place_limit_order (mkAccount 30 10) limitP.symbol limitP.side limitP.price
      limitP.margin limitP.take_profit limitP.stop_loss limitP.strategy_case
      limitP.fib_high limitP.fib_low limitP.entry_fib_level
      limitP.current_price).2.get_available_margin ∧
    0 ≤ (place_market_order (mkAccount 30 10) marketP.symbol marketP.side
      marketP.current_price marketP.margin marketP.take_profit marketP.now
      marketP.stop_loss marketP.strategy_case marketP.fib_high marketP.fib_low
      marketP.entry_fib_level).2.get_available_margin := by
  have h := available_margin_after_successful_placement (mkAccount 30 10)
    (by simp [Wf, Account.keyIds, mkAccount]) limitP marketP
  constructor
  · exact h.2.2.1
      (by norm_num [limitP, mkAccount, Account.get_available_margin])
      (by norm_num [place_limit_order, limitP, mkAccount,
        Account.get_available_margin, MIN_AVAILABLE_MARGIN])
  · exact h.2.2.2
      (by norm_num [marketP, mkAccount, Account.get_available_margin, TAKER_FEE])
      (by norm_num [place_market_order, marketP, mkAccount,
        Account.get_available_margin, MIN_AVAILABLE_MARGIN])

/-! ## Shared ledger lemmas -/

/-- `_fill_order` never touches the closed-trade history. -/
theorem fill_order_trade_history (a : Account) (i : ℕ) (fp now : ℚ) :
    (fill_order a i fp now).trade_history = a.trade_history := by
  unfold fill_order
  cases h : a.pending_orders.find? (fun o => o.id = i) <;> simp

/-- One `check_pending_orders` execution step never touches the closed-trade
history. -/
theorem pending_order_step_trade_history (cp now : ℚ) (acc : Account)
    (oa : Order × OrderAction) :
    (pending_order_step cp now acc oa).trade_history = acc.trade_history := by
  rcases oa with ⟨o, act⟩
  cases act with
  | FILL => exact fill_order_trade_history acc o.id cp now
  | CANCEL r =>
    unfold pending_order_step
    split_ifs <;> simp

/-- Folding `check_pending_orders` execution steps never touches the
closed-trade history. -/
theorem foldl_pending_step_trade_history (cp now : ℚ)
    (acts : List (Order × OrderAction)) (acc : Account) :
    (acts.foldl (pending_order_step cp now) acc).trade_history =
      acc.trade_history := by
  induction acts generalizing acc with
  | nil => rfl
  | cons h t ih => rw [List.foldl_cons, ih, pending_order_step_trade_history]

/-- `check_pending_orders` never touches the closed-trade history: fills and
cancellations do not realize P&L. -/
theorem check_pending_orders_trade_history (a : Account) (s : String)
    (p now : ℚ) :
    (check_pending_orders a s p now).trade_history = a.trade_history := by
  unfold check_pending_orders
  rw [foldl_pending_step_trade_history]

/-- `check_positions` is the identity on an account with no open
positions. -/
theorem check_positions_no_positions (a : Account) (s : String) (p now : ℚ)
    (h : a.open_positions = []) : check_positions a s p now = a := by
  simp [check_positions, positions_to_close, h]

/-- `check_pending_orders` is the identity on an account with no pending
orders. -/
theorem check_pending_orders_no_pending (a : Account) (s : String) (p now : ℚ)
    (h : a.pending_orders = []) : check_pending_orders a s p now = a := by
  unfold check_pending_orders
  cases a
  simp_all [orders_to_fill]

/-! ## The tick evaluator runs position checks first (claim C9) -/

/-- C9.  The live per-symbol tick body (`main` in `src/bot.py`, the
WebSocket handler, and the scanner watchdog — the non-emptiness guards
included) equals `check_pending_orders` applied AFTER `check_positions`;
consequently the trades closed by a tick are exactly those determined by
`check_positions` on the pre-tick state — a fill triggered by the same tick
can never contribute a close. -/
theorem main_tick_checks_positions_before_pending (a : Account) (s : String)
    (p now : ℚ) :
    main_symbol_tick a s p now =
      check_pending_orders (check_positions a s p now) s p now ∧
    (main_symbol_tick a s p now).trade_history =
      (check_positions a s p now).trade_history := by
  have h1 : main_symbol_tick a s p now =
      check_pending_orders (check_positions a s p now) s p now := by
    unfold main_symbol_tick
    by_cases hpos : a.open_positions.isEmpty
    · rw [List.isEmpty_iff] at hpos
      rw [check_positions_no_positions a s p now hpos]
      simp only [hpos, List.isEmpty_nil, if_true]
      by_cases hpen : a.pending_orders.isEmpty
      · rw [List.isEmpty_iff] at hpen
        simp only [hpen, List.isEmpty_nil, if_true]
        exact (check_pending_orders_no_pending a s p now hpen).symm
      · simp only [if_neg, hpen]
        simp [hpen]
    · simp only [hpos, if_false, Bool.false_eq_true, if_neg, not_false_iff]
      by_cases hpen : (check_positions a s p now).pending_orders.isEmpty
      · rw [List.isEmpty_iff] at hpen
        simp only [hpen, List.isEmpty_nil, if_true]
        exact (check_pending_orders_no_pending _ s p now hpen).symm
      · simp [hpen]
  exact ⟨h1, by rw [h1, check_pending_orders_trade_history]⟩

/-! ## ZigZag alternation (claim C6) -/

/-- One Phase-3 step preserves strict type alternation of the accumulated
zigzag (most recent pivot first): a differing type is consed on, a matching
type at most replaces the head by a pivot of the same type. -/
theorem zigzag_phase3_step_chain (rev : List Pivot) (p : Pivot)
    (h : List.Chain' (fun a b : Pivot => a.type ≠ b.type) rev) :
    List.Chain' (fun a b : Pivot => a.type ≠ b.type) (zigzag_phase3_step rev p) := by
  cases rev with
  | nil => simp [zigzag_phase3_step]
  | cons last tail =>
    rw [List.chain'_cons'] at h
    simp only [zigzag_phase3_step]
    split_ifs with h1 h2 h3
    · exact List.chain'_cons'.mpr ⟨fun b hb => by simp_all, List.chain'_cons'.mpr h⟩
    · push_neg at h1
      exact List.chain'_cons'.mpr ⟨fun b hb => by rw [h1]; exact h.1 b hb, h.2⟩
    · push_neg at h1
      exact List.chain'_cons'.mpr ⟨fun b hb => by rw [h1]; exact h.1 b hb, h.2⟩
    · exact List.chain'_cons'.mpr h

/-- The Phase-3 fold keeps the accumulator strictly alternating. -/
theorem zigzag_phase3_chain_aux (l : List Pivot) (acc : List Pivot)
    (hacc : List.Chain' (fun a b : Pivot => a.type ≠ b.type) acc) :
    List.Chain' (fun a b : Pivot => a.type ≠ b.type)
      (l.foldl zigzag_phase3_step acc) := by
  induction l generalizing acc with
  | nil => exact hacc
  | cons p t ih => exact ih _ (zigzag_phase3_step_chain acc p hacc)

/-- Phase 3 emits a strictly alternating pivot list, whatever its input. -/
theorem zigzag_phase3_chain (l : List Pivot) :
    List.Chain' (fun a b : Pivot => a.type ≠ b.type) (zigzag_phase3 l) := by
  unfold zigzag_phase3
  rw [List.chain'_reverse]
  exact (zigzag_phase3_chain_aux l [] (by simp)).imp (fun a b hab => hab.symm)

/-- C6.  For every candle series and every timeframe, the pivot sequence
returned by `calculate_zigzag` strictly alternates: no two consecutive
pivots share the same type. -/
theorem calculate_zigzag_alternates (cs : List Candle) (tf : String) :
    List.Chain' (fun p q : ZigZagPoint => p.type ≠ q.type)
      (calculate_zigzag cs tf) := by
  simp only [calculate_zigzag]
  split_ifs with h1 h2
  · simp
  · simp
  · rw [List.chain'_map]
    exact zigzag_phase3_chain _

/-! ## Swing-finder soundness (claim C5) -/

/-- Unpacking a failed `any_high_ge` scan: every candle in Python's
`range(a, b)` has its high strictly below the level. -/
theorem any_high_ge_false (data : List Candle) (a b : ℕ) (lvl : ℚ)
    (h : any_high_ge data a b lvl = false) (k : ℕ) (hk1 : a ≤ k) (hk2 : k < b) :
    (getC data k).high < lvl := by
  unfold any_high_ge at h
  rw [List.any_eq_false] at h
  have hmem : k ∈ List.range' a (b - a) := by
    rw [List.mem_range'_1]
    omega
  have := h k hmem
  simp only [decide_eq_true_eq] at this
  linarith

/-- Every swing the Path-1 loop returns is marked Path 1, has a positive
range, and passed the 90 %-invalidation scan over all candles after its
Low. -/
theorem path1_search_sound (data : List Candle) (last : ℕ) (cp : ℚ)
    (hs : List ZigZagPoint) (s : FibonacciSwing)
    (h : path1_search data last cp hs = some s) :
    s.path = 1 ∧ s.low.price < s.high.price ∧
    any_high_ge data (s.low.index + 1) (last + 1)
      (s.low.price + (s.high.price - s.low.price) * (90/100)) = false := by
  induction hs with
  | nil => simp [path1_search] at h
  | cons hd tl ih =>
    unfold path1_search at h
    simp only at h
    split at h
    · exact ih h
    · split at h
      · exact ih h
      · rename_i li_lp heq
        split at h
        · exact ih h
        · rename_i hrange
          split at h
          · exact ih h
          · rename_i h90
            split at h
            · exact ih h
            · rename_i htouch
              rw [Option.some_inj] at h
              subst h
              refine ⟨rfl, by simp; linarith, ?_⟩
              simpa using h90

/-- Every swing the Path-2 loop returns is marked Path 2, has a positive
range, and passed the 90 %-invalidation scan over all candles after its
Low. -/
theorem path2_search_sound (data : List Candle) (last : ℕ) (cp : ℚ)
    (hs : List ZigZagPoint) (s : FibonacciSwing)
    (h : path2_search data last cp hs = some s) :
    s.path = 2 ∧ s.low.price < s.high.price ∧
    any_high_ge data (s.low.index + 1) (last + 1)
      (s.low.price + (s.high.price - s.low.price) * (90/100)) = false := by
  induction hs with
  | nil => simp [path2_search] at h
  | cons hd tl ih =>
    unfold path2_search at h
    simp only at h
    split at h
    · exact ih h
    · split at h
      · exact ih h
      · rename_i li_lp heq
        split at h
        · exact ih h
        · rename_i hrange
          split at h
          · exact ih h
          · rename_i h90
            split at h
            · exact ih h
            · rename_i h618
              split at h
              · rw [Option.some_inj] at h
                subst h
                refine ⟨rfl, by simp; linarith, ?_⟩
                simpa using h90
              · exact ih h

/-- The common final step of `find_valid_fibonacci_swing` (for either choice
of `working_high_points`): every member of the returned list comes from one
of the two search loops and hence satisfies the swing invariants. -/
theorem find_valid_branch_sound (cd : List Candle) (cp : ℚ)
    (w1 w2 : List ZigZagPoint) (c : Prop) [inst : Decidable c]
    (swings : List FibonacciSwing)
    (h : (if ((match path1_search cd (cd.length - 1) cp w1 with
               | some s1 => [s1] | none => []) ++
              (if c then (match path2_search cd (cd.length - 1) cp w2 with
               | some s2 => [s2] | none => []) else [])) = [] then none
          else some ((match path1_search cd (cd.length - 1) cp w1 with
               | some s1 => [s1] | none => []) ++
              (if c then (match path2_search cd (cd.length - 1) cp w2 with
               | some s2 => [s2] | none => []) else []))) = some swings)
    (s : FibonacciSwing) (hs : s ∈ swings) (k : ℕ)
    (hk1 : s.low.index < k) (hk2 : k ≤ cd.length - 1) :
    s.low.price < s.high.price ∧
    (getC cd k).high < s.low.price + (90/100) * (s.high.price - s.low.price) := by
  set L := ((match path1_search cd (cd.length - 1) cp w1 with
               | some s1 => [s1] | none => []) ++
              (if c then (match path2_search cd (cd.length - 1) cp w2 with
               | some s2 => [s2] | none => []) else [])) with hL
  split at h
  · exact absurd h (by simp)
  · rw [Option.some_inj] at h
    subst h
    rw [hL, List.mem_append] at hs
    have key : s.low.price < s.high.price ∧
        any_high_ge cd (s.low.index + 1) ((cd.length - 1) + 1)
          (s.low.price + (s.high.price - s.low.price) * (90/100)) = false := by
      rcases hs with h1 | h2
      · split at h1
        · rename_i s1 heq
          simp only [List.mem_singleton] at h1
          subst h1
          have := path1_search_sound _ _ _ _ _ heq
          exact ⟨this.2.1, this.2.2⟩
        · simp at h1
      · split at h2
        · split at h2
          · rename_i s2 heq
            simp only [List.mem_singleton] at h2
            subst h2
            have := path2_search_sound _ _ _ _ _ heq
            exact ⟨this.2.1, this.2.2⟩
          · simp at h2
        · simp at h2
    refine ⟨key.1, ?_⟩
    have hb := any_high_ge_false _ _ _ _ key.2 k (by omega) (by omega)
    linarith

/-- C5.  Every swing returned by `find_valid_fibonacci_swing` (Path 1 or
Path 2) satisfies `high.price > low.price`, and no candle strictly after the
swing's Low index, up to the last candle, has a high reaching the 90 % level
`low.price + 0.90 * (high.price − low.price)`. -/
theorem find_valid_fibonacci_swing_sound (zz : List ZigZagPoint)
    (cd : List Candle) (swings : List FibonacciSwing)
    (h : find_valid_fibonacci_swing zz cd = some swings)
    (s : FibonacciSwing) (hs : s ∈ swings) (k : ℕ)
    (hk1 : s.low.index < k) (hk2 : k ≤ cd.length - 1) :
    s.low.price < s.high.price ∧
    (getC cd k).high < s.low.price + (90/100) * (s.high.price - s.low.price) := by
  simp only [find_valid_fibonacci_swing] at h
  split at h
  · exact absurd h (by simp)
  · split at h
    · exact absurd h (by simp)
    · split at h <;>
        exact find_valid_branch_sound cd _ _ _ _ swings h s hs k hk1 hk2

/-- A 3-candle series for the swing-finder witness: a fall from 100 to 50
followed by a retracement to 77. -/
def cdW : List Candle :=
  [⟨100, 95, 100, 90, 99⟩, ⟨200, 55, 60, 50, 55⟩, ⟨300, 72, 77, 70, 77⟩]

/-- The two ZigZag pivots of `cdW`. -/
def zzW : List ZigZagPoint := [⟨0, 100, 100, .high⟩, ⟨1, 200, 50, .low⟩]

/-- The Path-1 swing `find_valid_fibonacci_swing` finds on `zzW`/`cdW`. -/
def swingW : FibonacciSwing :=
  ⟨⟨0, 100, 100, .high⟩, ⟨1, 200, 50, .low⟩, calculate_fibonacci_levels 100 50,
   true, false, 1, 1⟩

/-- C5, witness: on the concrete series `cdW` the finder returns `swingW`,
whose range is positive and whose 90 % level (95) is above the only
subsequent candle high (77). -/
theorem find_valid_fibonacci_swing_sound_witness :
    find_valid_fibonacci_swing zzW cdW = some [swingW] ∧
    swingW.low.price < swingW.high.price ∧
    (getC cdW 2).high <
      swingW.low.price + (90/100) * (swingW.high.price - swingW.low.price) := by
  have heq : find_valid_fibonacci_swing zzW cdW = some [swingW] := by
    norm_num [find_valid_fibonacci_swing, zzW, cdW, swingW, path1_search,
      find_lowest, any_high_ge, max_by_index, getC, calculate_fibonacci_levels,
      FIBONACCI_LEVELS, CASE_1_MIN, List.range', List.filter_cons,
      List.filter_nil,
      show PivotType.low ≠ PivotType.high by decide,
      show PivotType.high ≠ PivotType.low by decide]
  have h := find_valid_fibonacci_swing_sound zzW cdW [swingW] heq swingW
    (by simp) 2 (by norm_num [swingW]) (by norm_num [cdW])
  exact ⟨heq, h.1, h.2⟩

/-! ## Pending-order cancellation (claims C8 and C10)

The invariant `no_order_id i a` — no pending order and no open position
carries the dictionary key `i` — is preserved by every tick operation; once a
pending order is cancelled its id satisfies it forever, which is what "never
filled by a later tick" means in state terms. -/

/-- The id `i` appears neither among pending-order keys nor among
open-position keys. -/
def no_order_id (i : ℕ) (a : Account) : Prop :=
  (∀ o ∈ a.pending_orders, o.id ≠ i) ∧
  (∀ p ∈ a.open_positions, p.order_id ≠ i)

/-- Members of a dict insertion are old members or the inserted value. -/
theorem mem_upsert_position (l : List Position) (p q : Position)
    (h : q ∈ upsert_position l p) : q ∈ l ∨ q = p := by
  unfold upsert_position at h
  split at h
  · rcases List.mem_map.mp h with ⟨x, hx, hq⟩
    by_cases hid : x.order_id = p.order_id
    · right
      simp [hid] at hq
      exact hq.symm
    · left
      simp [hid] at hq
      exact hq ▸ hx
  · rcases List.mem_append.mp h with h1 | h1
    · exact Or.inl h1
    · exact Or.inr (List.mem_singleton.mp h1)

/-- `_fill_order` preserves `no_order_id`: it can only move an id that is
still pending into the positions. -/
theorem fill_order_no_order_id (a : Account) (j : ℕ) (fp now : ℚ) (i : ℕ)
    (h : no_order_id i a) : no_order_id i (fill_order a j fp now) := by
  unfold fill_order
  cases hf : a.pending_orders.find? (fun o => o.id = j) with
  | none => exact h
  | some order =>
    have horder : order ∈ a.pending_orders := List.mem_of_find?_eq_some hf
    have hoid : order.id = j := by simpa using List.find?_some hf
    constructor
    · intro o2 ho2
      exact h.1 o2 (List.mem_of_mem_filter ho2)
    · intro p2 hp2
      rcases mem_upsert_position _ _ _ hp2 with h1 | h1
      · exact h.2 p2 h1
      · subst h1
        simpa using hoid ▸ h.1 order horder

/-- One `check_pending_orders` execution step preserves `no_order_id`. -/
theorem pending_order_step_no_order_id (cp now : ℚ) (acc : Account)
    (oa : Order × OrderAction) (i : ℕ) (h : no_order_id i acc) :
    no_order_id i (pending_order_step cp now acc oa) := by
  rcases oa with ⟨y, act⟩
  cases act with
  | FILL => exact fill_order_no_order_id acc y.id cp now i h
  | CANCEL r =>
    simp only [pending_order_step]
    split
    · constructor
      · intro o2 ho2
        exact h.1 o2 (List.mem_of_mem_filter ho2)
      · exact h.2
    · exact h

/-- The `check_pending_orders` execution fold preserves `no_order_id`. -/
theorem foldl_pending_step_no_order_id (cp now : ℚ)
    (acts : List (Order × OrderAction)) (acc : Account) (i : ℕ)
    (h : no_order_id i acc) :
    no_order_id i (acts.foldl (pending_order_step cp now) acc) := by
  induction acts generalizing acc with
  | nil => exact h
  | cons hd tl ih => exact ih _ (pending_order_step_no_order_id cp now acc hd i h)

/-- `check_pending_orders` preserves `no_order_id`. -/
theorem check_pending_orders_no_order_id (a : Account) (s : String) (p now : ℚ)
    (i : ℕ) (h : no_order_id i a) :
    no_order_id i (check_pending_orders a s p now) := by
  unfold check_pending_orders
  apply foldl_pending_step_no_order_id
  constructor
  · intro o2 ho2
    rcases List.mem_map.mp ho2 with ⟨o, ho, rfl⟩
    have := h.1 o ho
    split <;> simpa using this
  · exact h.2

/-- `_close_position` preserves `no_order_id` (it only removes). -/
theorem close_position_no_order_id (a : Account) (j : ℕ) (cp : ℚ) (r : String)
    (i : ℕ) (h : no_order_id i a) : no_order_id i (close_position a j cp r) := by
  unfold close_position
  cases hf : a.open_positions.find? (fun p => p.order_id = j) with
  | none => exact h
  | some position =>
    exact ⟨h.1, fun p2 hp2 => h.2 p2 (List.mem_of_mem_filter hp2)⟩

/-- `check_positions` preserves `no_order_id`. -/
theorem check_positions_no_order_id (a : Account) (s : String) (p now : ℚ)
    (i : ℕ) (h : no_order_id i a) :
    no_order_id i (check_positions a s p now) := by
  unfold check_positions
  generalize positions_to_close a s p now = l
  induction l generalizing a with
  | nil => exact h
  | cons hd tl ih =>
    exact ih _ (close_position_no_order_id _ _ _ _ i h)

/-- A sequence of per-symbol ticks `(symbol, price, now)` applied through
the main loop body. -/
def applyTicks (a : Account) (ts : List (String × ℚ × ℚ)) : Account :=
  ts.foldl (fun acc t => main_symbol_tick acc t.1 t.2.1 t.2.2) a

/-- One main-loop tick preserves `no_order_id`. -/
theorem main_symbol_tick_no_order_id (a : Account) (s : String) (p now : ℚ)
    (i : ℕ) (h : no_order_id i a) :
    no_order_id i (main_symbol_tick a s p now) := by
  unfold main_symbol_tick
  dsimp only
  split
  · split
    · exact h
    · exact check_pending_orders_no_order_id _ _ _ _ i h
  · split
    · exact check_positions_no_order_id _ _ _ _ i h
    · exact check_pending_orders_no_order_id _ _ _ _ i
        (check_positions_no_order_id _ _ _ _ i h)

/-- Any sequence of main-loop ticks preserves `no_order_id`. -/
theorem applyTicks_no_order_id (a : Account) (ts : List (String × ℚ × ℚ))
    (i : ℕ) (h : no_order_id i a) : no_order_id i (applyTicks a ts) := by
  unfold applyTicks
  induction ts generalizing a with
  | nil => exact h
  | cons hd tl ih => exact ih _ (main_symbol_tick_no_order_id _ _ _ _ i h)

/-- The execution fold never adds a pending order. -/
theorem mem_pending_of_step (cp now : ℚ) (acc : Account)
    (oa : Order × OrderAction) (o2 : Order)
    (h : o2 ∈ (pending_order_step cp now acc oa).pending_orders) :
    o2 ∈ acc.pending_orders := by
  rcases oa with ⟨y, act⟩
  cases act with
  | FILL =>
    unfold pending_order_step fill_order at h
    simp only at h
    cases hf : acc.pending_orders.find? (fun o => o.id = y.id) <;> rw [hf] at h
    · exact h
    · exact List.mem_of_mem_filter h
  | CANCEL r =>
    simp only [pending_order_step] at h
    split at h
    · exact List.mem_of_mem_filter h
    · exact h

/-- Cancellation records persist through one execution step. -/
theorem cancelled_mem_of_step (cp now : ℚ) (acc : Account)
    (oa : Order × OrderAction) (cr : CancelRecord)
    (h : cr ∈ acc.cancelled_history) :
    cr ∈ (pending_order_step cp now acc oa).cancelled_history := by
  rcases oa with ⟨y, act⟩
  cases act with
  | FILL =>
    unfold pending_order_step fill_order
    simp only
    cases hf : acc.pending_orders.find? (fun o => o.id = y.id) <;> simp [h]
  | CANCEL r =>
    simp only [pending_order_step]
    split
    · simp [h]
    · exact h

/-- Cancellation records persist through the execution fold. -/
theorem foldl_cancelled_mem (cp now : ℚ) (acts : List (Order × OrderAction))
    (acc : Account) (cr : CancelRecord) (h : cr ∈ acc.cancelled_history) :
    cr ∈ (acts.foldl (pending_order_step cp now) acc).cancelled_history := by
  induction acts generalizing acc with
  | nil => exact h
  | cons hd tl ih => exact ih _ (cancelled_mem_of_step cp now acc hd cr h)

/-- An id absent from the pending dict stays absent through the execution
fold. -/
theorem foldl_pending_absent (cp now : ℚ) (acts : List (Order × OrderAction))
    (acc : Account) (i : ℕ) (h : ∀ o2 ∈ acc.pending_orders, o2.id ≠ i) :
    ∀ o2 ∈ (acts.foldl (pending_order_step cp now) acc).pending_orders,
      o2.id ≠ i := by
  induction acts generalizing acc with
  | nil => exact h
  | cons hd tl ih =>
    exact ih _ (fun o2 ho2 => h o2 (mem_pending_of_step cp now acc hd o2 ho2))

/-- An order stays pending through a step that targets a different id. -/
theorem mem_pending_step_of_ne (cp now : ℚ) (acc : Account)
    (oa : Order × OrderAction) (x : Order) (hx : x ∈ acc.pending_orders)
    (hne : x.id ≠ oa.1.id) :
    x ∈ (pending_order_step cp now acc oa).pending_orders := by
  rcases oa with ⟨y, act⟩
  simp only at hne
  cases act with
  | FILL =>
    unfold pending_order_step fill_order
    simp only
    cases hf : acc.pending_orders.find? (fun o => o.id = y.id)
    · exact hx
    · simp only
      exact List.mem_filter.mpr ⟨hx, by simpa using hne⟩
  | CANCEL r =>
    simp only [pending_order_step]
    split
    · exact List.mem_filter.mpr ⟨hx, by simpa using hne⟩
    · exact hx

/-- Executing an action list that contains a CANCEL for a still-pending order
`x` (action ids distinct) records the cancellation with its reason and leaves
no pending order with `x`'s id. -/
theorem foldl_cancel_record (cp now : ℚ) (acts : List (Order × OrderAction))
    (acc : Account) (x : Order) (r : String)
    (hmem : (x, OrderAction.CANCEL r) ∈ acts)
    (hnodup : (acts.map (fun oa => oa.1.id)).Nodup)
    (hx : x ∈ acc.pending_orders) :
    (∃ cr ∈ (acts.foldl (pending_order_step cp now) acc).cancelled_history,
       cr.order.id = x.id ∧ cr.cancel_reason = r) ∧
    (∀ o2 ∈ (acts.foldl (pending_order_step cp now) acc).pending_orders,
       o2.id ≠ x.id) := by
  induction acts generalizing acc with
  | nil => simp at hmem
  | cons hd tl ih =>
    rw [List.foldl_cons]
    rcases List.mem_cons.mp hmem with heq | htl
    · subst heq
      have hany : (acc.pending_orders.any (fun o => o.id = x.id)) = true :=
        List.any_eq_true.mpr ⟨x, hx, by simp⟩
      simp only [pending_order_step, hany, if_true]
      constructor
      · refine ⟨⟨{ x with status := .CANCELLED }, r⟩, ?_, rfl, rfl⟩
        apply foldl_cancelled_mem
        exact List.mem_append_right _ (List.mem_singleton.mpr rfl)
      · apply foldl_pending_absent
        intro o2 ho2
        have := List.mem_filter.mp ho2
        simpa using this.2
    · have hne : hd.1.id ≠ x.id := by
        intro hcontra
        have hmemid : x.id ∈ tl.map (fun oa => oa.1.id) :=
          List.mem_map.mpr ⟨(x, .CANCEL r), htl, rfl⟩
        have hnd := List.nodup_cons.mp hnodup
        apply hnd.1
        simpa [hcontra] using hmemid
      exact ih (pending_order_step cp now acc hd) htl
        (List.nodup_cons.mp hnodup).2
        (mem_pending_step_of_ne cp now acc hd x hx (fun hc => hne hc.symm))

/-- The scan phase includes the action it computes for a pending order of
the ticked symbol. -/
theorem mem_orders_to_fill (pending : List Order) (sym : String) (cp : ℚ)
    (o : Order) (act : OrderAction) (ho : o ∈ pending) (hsym : o.symbol = sym)
    (hact : order_tick_action o cp = some act) :
    (o, act) ∈ orders_to_fill pending sym cp := by
  unfold orders_to_fill
  exact List.mem_filterMap.mpr ⟨o, ho, by simp [hsym, hact]⟩

/-- The action ids are a sublist of the pending-order ids (one action per
dict entry at most). -/
theorem orders_to_fill_ids_sublist (pending : List Order) (sym : String)
    (cp : ℚ) :
    ((orders_to_fill pending sym cp).map (fun oa => oa.1.id)).Sublist
      (pending.map (fun o => o.id)) := by
  induction pending with
  | nil => simp [orders_to_fill]
  | cons hd tl ih =>
    simp only [orders_to_fill, List.filterMap_cons] at *
    by_cases hsym : hd.symbol = sym
    · cases hta : order_tick_action hd cp with
      | none => simpa [hsym, hta] using ih.cons hd.id
      | some act => simpa [hsym, hta] using ih.cons₂ hd.id
    · simpa [hsym] using ih.cons hd.id

/-- If no FILL action targets id `i`, the execution fold creates no position
with id `i`. -/
theorem foldl_positions_absent (cp now : ℚ) (acts : List (Order × OrderAction))
    (acc : Account) (i : ℕ)
    (hfills : ∀ y act, (y, act) ∈ acts → act = OrderAction.FILL → y.id ≠ i)
    (hpos : ∀ p2 ∈ acc.open_positions, p2.order_id ≠ i) :
    ∀ p2 ∈ (acts.foldl (pending_order_step cp now) acc).open_positions,
      p2.order_id ≠ i := by
  induction acts generalizing acc with
  | nil => exact hpos
  | cons hd tl ih =>
    rw [List.foldl_cons]
    refine ih _ (fun y act hmem => hfills y act (List.mem_cons_of_mem hd hmem)) ?_
    rcases hd with ⟨y, act⟩
    cases act with
    | FILL =>
      have hyne : y.id ≠ i := hfills y .FILL (List.mem_cons_self _ _) rfl
      unfold pending_order_step fill_order
      simp only
      cases hf : acc.pending_orders.find? (fun o => o.id = y.id)
      · exact hpos
      · rename_i order
        intro p2 hp2
        rcases mem_upsert_position _ _ _ hp2 with h1 | h1
        · exact hpos p2 h1
        · subst h1
          simpa using hyne
    | CANCEL r =>
      simp only [pending_order_step]
      split
      · exact hpos
      · exact hpos

/-- The case-1 cancellation rule fires whenever the current fib fraction is
at or below the 38.2 % default. -/
theorem order_cancel_reason_c1 (o : Order) (H L tick : ℚ)
    (hH : o.fib_high = some H) (hL : o.fib_low = some L)
    (hH0 : H ≠ 0) (hL0 : L ≠ 0) (hrange : 0 < H - L)
    (hcase : o.strategy_case = 1)
    (hfrac : (tick - L) / (H - L) ≤ cancel_c1) :
    order_cancel_reason o tick = some "Precio tocó 38.2% (C1 anulado)" := by
  unfold order_cancel_reason
  rw [hH, hL]
  simp [hH0, hL0, hrange, hcase, hfrac]

/-- The case-3 cancellation rule fires whenever the current fib fraction is
at or below the 50 % default. -/
theorem order_cancel_reason_c3 (o : Order) (H L tick : ℚ)
    (hH : o.fib_high = some H) (hL : o.fib_low = some L)
    (hH0 : H ≠ 0) (hL0 : L ≠ 0) (hrange : 0 < H - L)
    (hcase : o.strategy_case = 3)
    (hfrac : (tick - L) / (H - L) ≤ cancel_c3) :
    order_cancel_reason o tick = some "Precio tocó 50.0% (C3 anulado)" := by
  unfold order_cancel_reason
  rw [hH, hL]
  simp [hH0, hL0, hrange, hcase, hfrac]

/-- Common consequence of a firing cancellation rule: after
`check_pending_orders` the order's id is gone from the pending dict, a
cancellation record with the rule's reason exists, and no position carries
the id. -/
theorem check_pending_orders_cancel_common
    (a : Account) (o : Order) (tick now : ℚ) (r : String)
    (ho : o ∈ a.pending_orders)
    (hnodup : (a.pending_orders.map (fun x => x.id)).Nodup)
    (hpos : ∀ p2 ∈ a.open_positions, p2.order_id ≠ o.id)
    (hreason : order_cancel_reason { o with current_price := tick } tick = some r) :
    (∀ o2 ∈ (check_pending_orders a o.symbol tick now).pending_orders,
       o2.id ≠ o.id) ∧
    (∃ cr ∈ (check_pending_orders a o.symbol tick now).cancelled_history,
       cr.order.id = o.id ∧ cr.cancel_reason = r) ∧
    (∀ p2 ∈ (check_pending_orders a o.symbol tick now).open_positions,
       p2.order_id ≠ o.id) := by
  have hcpo : check_pending_orders a o.symbol tick now =
      (orders_to_fill
        (a.pending_orders.map (fun x =>
          if x.symbol = o.symbol then { x with current_price := tick } else x))
        o.symbol tick).foldl (pending_order_step tick now)
        { a with pending_orders := a.pending_orders.map (fun x =>
            if x.symbol = o.symbol then { x with current_price := tick } else x) } := rfl
  set pending' := a.pending_orders.map (fun x =>
    if x.symbol = o.symbol then { x with current_price := tick } else x) with hpend
  have ho' : ({ o with current_price := tick }) ∈ pending' :=
    List.mem_map.mpr ⟨o, ho, by simp⟩
  have hact : order_tick_action { o with current_price := tick } tick =
      some (.CANCEL r) := by
    unfold order_tick_action
    rw [hreason]
  have hmemact := mem_orders_to_fill pending' o.symbol tick _ _ ho' rfl hact
  have hids : pending'.map (fun x => x.id) =
      a.pending_orders.map (fun x => x.id) := by
    rw [hpend, List.map_map]
    apply List.map_congr_left
    intro x hx
    by_cases hxs : x.symbol = o.symbol <;> simp [hxs]
  have hnodupacts :
      ((orders_to_fill pending' o.symbol tick).map (fun oa => oa.1.id)).Nodup := by
    have := orders_to_fill_ids_sublist pending' o.symbol tick
    exact this.nodup (hids ▸ hnodup)
  have hrec := foldl_cancel_record tick now
    (orders_to_fill pending' o.symbol tick)
    { a with pending_orders := pending' }
    { o with current_price := tick } r hmemact hnodupacts ho'
  have hfills : ∀ y act, (y, act) ∈ orders_to_fill pending' o.symbol tick →
      act = OrderAction.FILL → y.id ≠ o.id := by
    intro y act hmem heq hy
    subst heq
    have hequal := List.inj_on_of_nodup_map hnodupacts hmem hmemact (by simpa using hy)
    simp at hequal
  have hposf := foldl_positions_absent tick now
    (orders_to_fill pending' o.symbol tick)
    { a with pending_orders := pending' } o.id hfills hpos
  rw [hcpo]
  exact ⟨hrec.2, hrec.1, hposf⟩

/-- C8.  A pending case-1 limit order with truthy swing bounds and positive
range is cancelled by a tick at 35 % of the swing range (the 38.2 % default
threshold): it disappears from the pending dict, a record with a non-empty
reason lands in `cancelled_history`, and no later tick sequence — whatever
its prices, including prices at or above the limit price — ever creates a
position with the order's id. -/
theorem case1_order_cancelled_at_35pct
    (a : Account) (o : Order) (H L now : ℚ)
    (ho : o ∈ a.pending_orders)
    (hnodup : (a.pending_orders.map (fun x => x.id)).Nodup)
    (hpos : ∀ p2 ∈ a.open_positions, p2.order_id ≠ o.id)
    (hcase : o.strategy_case = 1)
    (hH : o.fib_high = some H) (hL : o.fib_low = some L)
    (hH0 : H ≠ 0) (hL0 : L ≠ 0) (hrange : 0 < H - L) :
    (∀ o2 ∈ (check_pending_orders a o.symbol (L + (35/100) * (H - L))
        now).pending_orders, o2.id ≠ o.id) ∧
    (∃ cr ∈ (check_pending_orders a o.symbol (L + (35/100) * (H - L))
        now).cancelled_history, cr.order.id = o.id ∧ cr.cancel_reason ≠ "") ∧
    (∀ ts : List (String × ℚ × ℚ),
      ∀ p2 ∈ (applyTicks (check_pending_orders a o.symbol
        (L + (35/100) * (H - L)) now) ts).open_positions,
        p2.order_id ≠ o.id) := by
  have hfrac : ((L + (35/100) * (H - L)) - L) / (H - L) ≤ cancel_c1 := by
    have h1 : (L + (35/100) * (H - L)) - L = (35/100) * (H - L) := by ring
    rw [h1, mul_div_assoc, div_self (ne_of_gt hrange)]
    norm_num [cancel_c1]
  have hreason := order_cancel_reason_c1
    { o with current_price := L + (35/100) * (H - L) } H L _
    hH hL hH0 hL0 hrange hcase hfrac
  have hc := check_pending_orders_cancel_common a o _ now _ ho hnodup hpos hreason
  refine ⟨hc.1, ?_, ?_⟩
  · rcases hc.2.1 with ⟨cr, hcr, hid, hr⟩
    exact ⟨cr, hcr, hid, by rw [hr]; decide⟩
  · intro ts
    exact (applyTicks_no_order_id _ ts o.id ⟨hc.1, hc.2.2⟩).2

/-- C10.  When a single tick satisfies both the per-case cancellation
condition and the limit-fill condition of a pending order,
`check_pending_orders` cancels the order and does not fill it: no position is
created for that order's id, the order leaves the pending dict, and a
cancellation record is appended (the cancellation test runs first and
`continue`s past the fill test). -/
theorem cancel_takes_precedence_over_fill
    (a : Account) (o : Order) (H L tick now : ℚ)
    (ho : o ∈ a.pending_orders)
    (hnodup : (a.pending_orders.map (fun x => x.id)).Nodup)
    (hpos : ∀ p2 ∈ a.open_positions, p2.order_id ≠ o.id)
    (hH : o.fib_high = some H) (hL : o.fib_low = some L)
    (hH0 : H ≠ 0) (hL0 : L ≠ 0) (hrange : 0 < H - L)
    (hcancel : (o.strategy_case = 1 ∧ (tick - L) / (H - L) ≤ cancel_c1) ∨
               (o.strategy_case = 3 ∧ (tick - L) / (H - L) ≤ cancel_c3))
    (hfill : o.order_type = .LIMIT ∧
             ((o.side = .SELL ∧ o.price ≤ tick) ∨
              (o.side = .BUY ∧ tick ≤ o.price))) :
    (∀ p2 ∈ (check_pending_orders a o.symbol tick now).open_positions,
       p2.order_id ≠ o.id) ∧
    (∀ o2 ∈ (check_pending_orders a o.symbol tick now).pending_orders,
       o2.id ≠ o.id) ∧
    (∃ cr ∈ (check_pending_orders a o.symbol tick now).cancelled_history,
       cr.order.id = o.id) := by
  have hreason : ∃ r, order_cancel_reason { o with current_price := tick } tick
      = some r := by
    rcases hcancel with ⟨h1, h2⟩ | ⟨h1, h2⟩
    · exact ⟨_, order_cancel_reason_c1 _ H L tick hH hL hH0 hL0 hrange h1 h2⟩
    · exact ⟨_, order_cancel_reason_c3 _ H L tick hH hL hH0 hL0 hrange h1 h2⟩
  rcases hreason with ⟨r, hr⟩
  have hc := check_pending_orders_cancel_common a o tick now r ho hnodup hpos hr
  exact ⟨hc.2.2, hc.1, hc.2.1.imp (fun cr h => ⟨h.1, h.2.1⟩)⟩

/-- A pending case-1 SELL limit at 61.8 % of the swing 50 → 100. -/
def orderC8 : Order :=
  { id := 1, symbol := "BTCUSDT", side := .SELL, order_type := .LIMIT,
    quantity := 1, price := 809/10, margin := 3, leverage := 10,
    take_profit := 775/10, strategy_case := 1,
    fib_high := some 100, fib_low := some 50 }

/-- An account holding only `orderC8`. -/
def accC8 : Account :=
  { initial_balance := 30, balance := 30, leverage := 10,
    pending_orders := [orderC8], open_positions := [], trade_history := [],
    cancelled_history := [], order_counter := 1 }

/-- C8, witness: the scenario instantiated on `accC8` with swing 50 → 100
(tick 67.5 = 35 % of the range). -/
theorem case1_order_cancelled_at_35pct_witness :
    (∀ o2 ∈ (check_pending_orders accC8 orderC8.symbol
        (50 + (35/100) * (100 - 50)) 0).pending_orders, o2.id ≠ orderC8.id) ∧
    (∃ cr ∈ (check_pending_orders accC8 orderC8.symbol
        (50 + (35/100) * (100 - 50)) 0).cancelled_history,
        cr.order.id = orderC8.id ∧ cr.cancel_reason ≠ "") ∧
    (∀ ts : List (String × ℚ × ℚ),
      ∀ p2 ∈ (applyTicks (check_pending_orders accC8 orderC8.symbol
        (50 + (35/100) * (100 - 50)) 0) ts).open_positions,
        p2.order_id ≠ orderC8.id) :=
  case1_order_cancelled_at_35pct accC8 orderC8 100 50 0
    (by simp [accC8]) (by simp [accC8]) (by simp [accC8])
    rfl rfl rfl (by norm_num) (by norm_num) (by norm_num)

/-- A pending case-1 SELL limit whose price 60 is below the 35 % tick 67.5,
so the same tick satisfies both its cancel and its fill condition. -/
def orderC10 : Order :=
  { id := 1, symbol := "ETHUSDT", side := .SELL, order_type := .LIMIT,
    quantity := 1, price := 60, margin := 3, leverage := 10,
    take_profit := 55, strategy_case := 1,
    fib_high := some 100, fib_low := some 50 }

/-- An account holding only `orderC10`. -/
def accC10 : Account :=
  { initial_balance := 30, balance := 30, leverage := 10,
    pending_orders := [orderC10], open_positions := [], trade_history := [],
    cancelled_history := [], order_counter := 1 }

/-- C10, witness: tick 67.5 both cancels (fib 35 % ≤ 38.2 %) and would fill
(67.5 ≥ 60) `orderC10`; the order is cancelled, not filled. -/
theorem cancel_takes_precedence_over_fill_witness :
    (∀ p2 ∈ (check_pending_orders accC10 orderC10.symbol (135/2)
        0).open_positions, p2.order_id ≠ orderC10.id) ∧
    (∀ o2 ∈ (check_pending_orders accC10 orderC10.symbol (135/2)
        0).pending_orders, o2.id ≠ orderC10.id) ∧
    (∃ cr ∈ (check_pending_orders accC10 orderC10.symbol (135/2)
        0).cancelled_history, cr.order.id = orderC10.id) :=
  cancel_takes_precedence_over_fill accC10 orderC10 100 50 (135/2) 0
    (by simp [accC10]) (by simp [accC10]) (by simp [accC10])
    rfl rfl (by norm_num) (by norm_num) (by norm_num)
    (Or.inl ⟨rfl, by norm_num [cancel_c1]⟩)
    ⟨rfl, Or.inl ⟨rfl, by norm_num [orderC10]⟩⟩

end TradingBot

/-! ## The ledger balance invariant (claim C4)

Balance bookkeeping over arbitrary traces of ledger operations: each
operation changes the balance by the realized P&L it books minus the
commissions it debits, and the realized P&L is exactly what lands in
`trade_history`. -/

namespace TradingBot

theorem find?_filter_ne_key {α : Type} (key : α → ℕ) (l : List α) (i j : ℕ)
    (hne : i ≠ j) :
    (l.filter (fun x => key x ≠ j)).find? (fun x => key x = i) =
      l.find? (fun x => key x = i) := by
  induction l with
  | nil => rfl
  | cons hd tl ih =>
    by_cases hq : key hd ≠ j
    · rw [List.filter_cons_of_pos (by simpa using hq)]
      by_cases hp : key hd = i
      · rw [List.find?_cons_of_pos _ (by simpa using hp),
          List.find?_cons_of_pos _ (by simpa using hp)]
      · rw [List.find?_cons_of_neg _ (by simpa using hp),
          List.find?_cons_of_neg _ (by simpa using hp), ih]
    · push_neg at hq
      rw [List.filter_cons_of_neg (by simpa using hq)]
      rw [List.find?_cons_of_neg _ (by simp [hq, Ne.symm hne]), ih]

theorem find?_eq_of_mem_nodup_key {α : Type} (key : α → ℕ) (l : List α)
    (x : α) (hx : x ∈ l) (hnodup : (l.map key).Nodup) :
    l.find? (fun y => key y = key x) = some x := by
  induction l with
  | nil => simp at hx
  | cons hd tl ih =>
    rcases List.mem_cons.mp hx with rfl | htl
    · rw [List.find?_cons_of_pos _ (by simp)]
    · have hnd := List.nodup_cons.mp hnodup
      have hne : key hd ≠ key x := by
        intro hcontra
        exact hnd.1 (hcontra ▸ List.mem_map.mpr ⟨x, htl, rfl⟩)
      rw [List.find?_cons_of_neg _ (by simpa using hne)]
      exact ih htl hnd.2

theorem mem_positions_to_close_fst (a : Account) (s : String) (cp now : ℚ)
    (pr : Position × String) (h : pr ∈ positions_to_close a s cp now) :
    pr.1 ∈ a.open_positions := by
  unfold positions_to_close at h
  rcases List.mem_filterMap.mp h with ⟨pos, hpos, heq⟩
  split at heq
  · simp at heq
  · split at heq
    · simp at heq
    · split at heq
      · rw [Option.some_inj] at heq
        rw [← heq]
        exact hpos
      · split at heq
        · rw [Option.some_inj] at heq
          rw [← heq]
          exact hpos
        · simp at heq

theorem positions_to_close_ids_sublist (a : Account) (s : String) (cp now : ℚ) :
    ((positions_to_close a s cp now).map (fun pr => pr.1.order_id)).Sublist
      (a.open_positions.map (fun p => p.order_id)) := by
  unfold positions_to_close
  generalize a.open_positions = l
  induction l with
  | nil => simp
  | cons hd tl ih =>
    rw [List.filterMap_cons]
    split
    · simpa using ih.cons hd.order_id
    · rename_i pr heq
      split at heq
      · simp at heq
      · split at heq
        · simp at heq
        · split at heq
          · rw [Option.some_inj] at heq
            subst heq
            simpa using ih.cons₂ hd.order_id
          · split at heq
            · rw [Option.some_inj] at heq
              subst heq
              simpa using ih.cons₂ hd.order_id
            · simp at heq

end TradingBot

namespace TradingBot

theorem foldl_close_balance (cp : ℚ) (l : List (Position × String)) (acc : Account)
    (hmem : ∀ pr ∈ l, acc.open_positions.find?
      (fun p => p.order_id = pr.1.order_id) = some pr.1)
    (hnodup : (l.map (fun pr => pr.1.order_id)).Nodup) :
    (l.foldl (close_position_step cp) acc).balance
      = acc.balance + (l.map (fun pr => pr.1.calculate_pnl cp)).sum
        - (l.map (fun pr => pr.1.quantity * cp * pr.1.closing_fee_rate)).sum ∧
    sumPnl (l.foldl (close_position_step cp) acc).trade_history
      = sumPnl acc.trade_history + (l.map (fun pr => pr.1.calculate_pnl cp)).sum := by
  induction l generalizing acc with
  | nil => simp
  | cons hd tl ih =>
    rw [List.foldl_cons]
    have hfind := hmem hd (List.mem_cons_self _ _)
    have hstep_pos : (close_position_step cp acc hd).open_positions =
        acc.open_positions.filter (fun p => p.order_id ≠ hd.1.order_id) := by
      unfold close_position_step close_position
      rw [hfind]
    have hstep_bal : (close_position_step cp acc hd).balance =
        acc.balance + hd.1.calculate_pnl cp
          - hd.1.quantity * cp * hd.1.closing_fee_rate := by
      unfold close_position_step close_position
      rw [hfind]
    have hstep_hist : sumPnl (close_position_step cp acc hd).trade_history =
        sumPnl acc.trade_history + hd.1.calculate_pnl cp := by
      unfold close_position_step close_position
      rw [hfind]
      simp [sumPnl]
    have hnd := List.nodup_cons.mp hnodup
    have hmem' : ∀ pr ∈ tl, (close_position_step cp acc hd).open_positions.find?
        (fun p => p.order_id = pr.1.order_id) = some pr.1 := by
      intro pr hpr
      have hne : pr.1.order_id ≠ hd.1.order_id := by
        intro hcontra
        exact hnd.1 (List.mem_map.mpr ⟨pr, hpr, hcontra⟩)
      rw [hstep_pos]
      exact (find?_filter_ne_key (fun p => p.order_id) acc.open_positions
        pr.1.order_id hd.1.order_id hne).trans (hmem pr (List.mem_cons_of_mem _ hpr))
    have hih := ih (close_position_step cp acc hd) hmem' hnd.2
    constructor
    · rw [hih.1, hstep_bal]
      simp only [List.map_cons, List.sum_cons]
      ring
    · rw [hih.2, hstep_hist]
      simp only [List.map_cons, List.sum_cons]
      ring

theorem check_positions_balance (a : Account) (s : String) (cp now : ℚ)
    (hnodup : (a.open_positions.map (fun p => p.order_id)).Nodup) :
    (check_positions a s cp now).balance
      = a.balance + pnlOf a (.checkPositions s cp now)
        - feesOf a (.checkPositions s cp now) ∧
    sumPnl (check_positions a s cp now).trade_history
      = sumPnl a.trade_history + pnlOf a (.checkPositions s cp now) := by
  have hsub := positions_to_close_ids_sublist a s cp now
  have hmem : ∀ pr ∈ positions_to_close a s cp now,
      a.open_positions.find? (fun p => p.order_id = pr.1.order_id) = some pr.1 := by
    intro pr hpr
    exact find?_eq_of_mem_nodup_key (fun p => p.order_id) a.open_positions pr.1
      (mem_positions_to_close_fst a s cp now pr hpr) hnodup
  exact foldl_close_balance cp (positions_to_close a s cp now) a hmem
    (hsub.nodup hnodup)

end TradingBot

namespace TradingBot

theorem mem_orders_to_fill_fst (pending : List Order) (sym : String) (cp : ℚ)
    (oa : Order × OrderAction) (h : oa ∈ orders_to_fill pending sym cp) :
    oa.1 ∈ pending := by
  unfold orders_to_fill at h
  rcases List.mem_filterMap.mp h with ⟨o, ho, heq⟩
  split at heq
  · cases hta : order_tick_action o cp <;> rw [hta] at heq
    · simp at heq
    · simp only [Option.map_some'] at heq
      rw [Option.some_inj] at heq
      rw [← heq]
      exact ho
  · simp at heq

theorem foldl_fill_balance (cp now : ℚ) (acts : List (Order × OrderAction))
    (acc : Account)
    (hmem : ∀ oa ∈ acts, oa.2 = OrderAction.FILL →
      acc.pending_orders.find? (fun o => o.id = oa.1.id) = some oa.1)
    (hnodup : (acts.map (fun oa => oa.1.id)).Nodup) :
    (acts.foldl (pending_order_step cp now) acc).balance
      = acc.balance - (acts.map (fun oa =>
          match oa.2 with
          | OrderAction.FILL => oa.1.quantity * cp * MAKER_FEE
          | OrderAction.CANCEL _ => 0)).sum := by
  induction acts generalizing acc with
  | nil => simp
  | cons hd tl ih =>
    rw [List.foldl_cons]
    have hnd := List.nodup_cons.mp hnodup
    have hne_tl : ∀ oa ∈ tl, oa.1.id ≠ hd.1.id := by
      intro oa hoa hcontra
      exact hnd.1 (List.mem_map.mpr ⟨oa, hoa, hcontra⟩)
    rcases hd with ⟨y, act⟩
    cases act with
    | FILL =>
      have hfind := hmem (y, .FILL) (List.mem_cons_self _ _) rfl
      have hbal : (pending_order_step cp now acc (y, .FILL)).balance
          = acc.balance - y.quantity * cp * MAKER_FEE := by
        unfold pending_order_step fill_order
        simp only
        rw [hfind]
      have hpend : (pending_order_step cp now acc (y, .FILL)).pending_orders
          = acc.pending_orders.filter (fun o => o.id ≠ y.id) := by
        unfold pending_order_step fill_order
        simp only
        rw [hfind]
      have hmem' : ∀ oa ∈ tl, oa.2 = OrderAction.FILL →
          (pending_order_step cp now acc (y, .FILL)).pending_orders.find?
            (fun o => o.id = oa.1.id) = some oa.1 := by
        intro oa hoa hfl
        rw [hpend]
        exact (find?_filter_ne_key (fun o => o.id) acc.pending_orders
          oa.1.id y.id (hne_tl oa hoa)).trans
          (hmem oa (List.mem_cons_of_mem _ hoa) hfl)
      rw [ih _ hmem' hnd.2, hbal]
      simp only [List.map_cons, List.sum_cons]
      ring
    | CANCEL r =>
      by_cases hany : (acc.pending_orders.any (fun o => o.id = y.id)) = true
      · have hbal : (pending_order_step cp now acc (y, .CANCEL r)).balance
            = acc.balance := by
          simp only [pending_order_step, hany, if_true]
        have hpend : (pending_order_step cp now acc (y, .CANCEL r)).pending_orders
            = acc.pending_orders.filter (fun o => o.id ≠ y.id) := by
          simp only [pending_order_step, hany, if_true]
        have hmem' : ∀ oa ∈ tl, oa.2 = OrderAction.FILL →
            (pending_order_step cp now acc (y, .CANCEL r)).pending_orders.find?
              (fun o => o.id = oa.1.id) = some oa.1 := by
          intro oa hoa hfl
          rw [hpend]
          exact (find?_filter_ne_key (fun o => o.id) acc.pending_orders
            oa.1.id y.id (hne_tl oa hoa)).trans
            (hmem oa (List.mem_cons_of_mem _ hoa) hfl)
        rw [ih _ hmem' hnd.2, hbal]
        simp only [List.map_cons, List.sum_cons]
        ring
      · have hstep : pending_order_step cp now acc (y, .CANCEL r) = acc := by
          simp only [pending_order_step]
          exact if_neg hany
        rw [hstep]
        rw [ih _ (fun oa hoa hfl => hmem oa (List.mem_cons_of_mem _ hoa) hfl) hnd.2]
        simp only [List.map_cons, List.sum_cons]
        ring

theorem check_pending_orders_balance (a : Account) (s : String) (cp now : ℚ)
    (hnodup : (a.pending_orders.map (fun o => o.id)).Nodup) :
    (check_pending_orders a s cp now).balance
      = a.balance - feesOf a (.checkPendingOrders s cp now) := by
  have hcpo : check_pending_orders a s cp now =
      (orders_to_fill
        (a.pending_orders.map (fun o =>
          if o.symbol = s then { o with current_price := cp } else o)) s cp).foldl
        (pending_order_step cp now)
        { a with pending_orders := a.pending_orders.map (fun o =>
            if o.symbol = s then { o with current_price := cp } else o) } := rfl
  set pending' := a.pending_orders.map (fun o =>
    if o.symbol = s then { o with current_price := cp } else o) with hpend
  have hids : pending'.map (fun o => o.id) = a.pending_orders.map (fun o => o.id) := by
    rw [hpend, List.map_map]
    apply List.map_congr_left
    intro x hx
    by_cases hxs : x.symbol = s <;> simp [hxs]
  have hnodup' : (pending'.map (fun o => o.id)).Nodup := hids ▸ hnodup
  have hmem : ∀ oa ∈ orders_to_fill pending' s cp, oa.2 = OrderAction.FILL →
      pending'.find? (fun o => o.id = oa.1.id) = some oa.1 := by
    intro oa hoa hfl
    exact find?_eq_of_mem_nodup_key (fun o => o.id) pending' oa.1
      (mem_orders_to_fill_fst pending' s cp oa hoa) hnodup'
  have hnodupacts := (orders_to_fill_ids_sublist pending' s cp).nodup hnodup'
  rw [hcpo, foldl_fill_balance cp now _ _ hmem hnodupacts]
  rfl

end TradingBot

namespace TradingBot

theorem wf_mkAccount (ib lev : ℚ) : Wf (mkAccount ib lev) := by
  simp [Wf, Account.keyIds, mkAccount]

theorem wf_of_sublist (a' a : Account) (hsub : a'.keyIds.Sublist a.keyIds)
    (hc : a'.order_counter = a.order_counter) (hwf : Wf a) : Wf a' := by
  refine ⟨hsub.nodup hwf.1, fun i hi => ?_⟩
  rw [hc]
  exact hwf.2 i (hsub.subset hi)

theorem close_position_wf (a : Account) (j : ℕ) (cp : ℚ) (r : String)
    (hwf : Wf a) : Wf (close_position a j cp r) := by
  unfold close_position
  cases hf : a.open_positions.find? (fun p => p.order_id = j) with
  | none => exact hwf
  | some position =>
    refine wf_of_sublist _ a ?_ rfl hwf
    unfold Account.keyIds
    exact List.Sublist.append (List.Sublist.refl _) ((List.filter_sublist _).map _)

theorem check_positions_wf (a : Account) (s : String) (cp now : ℚ)
    (hwf : Wf a) : Wf (check_positions a s cp now) := by
  unfold check_positions
  generalize positions_to_close a s cp now = l
  induction l generalizing a with
  | nil => exact hwf
  | cons hd tl ih => exact ih _ (close_position_wf _ _ _ _ hwf)

end TradingBot

namespace TradingBot

theorem wf_append_pending (a : Account) (o : Order)
    (ho : o.id = a.order_counter + 1) (hwf : Wf a) :
    Wf { a with
      pending_orders := a.pending_orders ++ [o],
      order_counter := a.order_counter + 1 } := by
  have hfresh : a.order_counter + 1 ∉ a.keyIds := by
    intro hmem
    have := hwf.2 _ hmem
    omega
  have hkey : ({ a with
      pending_orders := a.pending_orders ++ [o],
      order_counter := a.order_counter + 1 } : Account).keyIds
      = a.pending_orders.map (fun x => x.id) ++ (a.order_counter + 1)
        :: a.open_positions.map (fun p => p.order_id) := by
    unfold Account.keyIds
    simp [ho]
  constructor
  · rw [hkey]
    refine List.nodup_middle.mpr (List.nodup_cons.mpr ⟨?_, hwf.1⟩)
    exact fun hmem => hfresh hmem
  · intro i hi
    show i ≤ a.order_counter + 1
    rw [hkey] at hi
    simp only [List.mem_append, List.mem_cons] at hi
    rcases hi with hi | hi | hi
    · have := hwf.2 i (List.mem_append_left _ hi)
      omega
    · omega
    · have := hwf.2 i (List.mem_append_right _ hi)
      omega

theorem place_limit_order_wf (a : Account) (symbol : String) (side : OrderSide)
    (price margin take_profit : ℚ) (stop_loss : Option ℚ) (strategy_case : ℕ)
    (fib_high fib_low entry_fib_level : Option ℚ) (current_price : Option ℚ)
    (hwf : Wf a) :
    Wf (place_limit_order a symbol side price margin take_profit stop_loss
      strategy_case fib_high fib_low entry_fib_level current_price).2 := by
  unfold place_limit_order
  split
  · exact hwf
  · refine wf_append_pending a _ ?_ hwf
    rfl

theorem wf_market_update (a : Account) (p : Position) (b : ℚ)
    (hp : p.order_id = a.order_counter + 1) (hwf : Wf a) :
    Wf { a with
      open_positions := upsert_position a.open_positions p,
      balance := b,
      order_counter := a.order_counter + 1 } := by
  have hfresh : ∀ i ∈ a.keyIds, i ≠ a.order_counter + 1 := by
    intro i hi hcontra
    have := hwf.2 i hi
    omega
  have hany : (a.open_positions.any (fun q => q.order_id = p.order_id)) = false := by
    rw [List.any_eq_false]
    intro q hq
    simp only [decide_eq_true_eq]
    intro hcontra
    exact hfresh q.order_id (List.mem_append_right _ (List.mem_map.mpr ⟨q, hq, rfl⟩))
      (by rw [hcontra, hp])
  have hup : upsert_position a.open_positions p = a.open_positions ++ [p] := by
    unfold upsert_position
    rw [if_neg (by simp [hany])]
  constructor
  · show (a.pending_orders.map (fun x => x.id) ++
      (upsert_position a.open_positions p).map (fun q => q.order_id)).Nodup
    rw [hup, List.map_append, ← List.append_assoc]
    rw [List.nodup_append]
    refine ⟨hwf.1, by simp, ?_⟩
    intro x hx
    simp only [List.map_cons, List.map_nil, List.mem_singleton, hp]
    intro hmem
    exact hfresh x hx hmem
  · intro i hi
    show i ≤ a.order_counter + 1
    unfold Account.keyIds at hi
    simp only at hi
    rw [hup, List.map_append] at hi
    rcases List.mem_append.mp hi with hi | hi
    · have := hwf.2 i (List.mem_append_left _ hi)
      omega
    · rcases List.mem_append.mp hi with hi | hi
      · have := hwf.2 i (List.mem_append_right _ hi)
        omega
      · simp [hp] at hi
        omega

theorem place_market_order_wf (a : Account) (symbol : String) (side : OrderSide)
    (current_price margin take_profit now : ℚ) (stop_loss : Option ℚ)
    (strategy_case : ℕ) (fib_high fib_low entry_fib_level : Option ℚ)
    (hwf : Wf a) :
    Wf (place_market_order a symbol side current_price margin take_profit now
      stop_loss strategy_case fib_high fib_low entry_fib_level).2 := by
  unfold place_market_order
  split
  · exact hwf
  · refine wf_market_update a _ _ ?_ hwf
    rfl

end TradingBot

namespace TradingBot

theorem wf_fill_update (a : Account) (pos : Position) (b : ℚ) (j : ℕ)
    (hj : pos.order_id = j)
    (hjP : pos.order_id ∈ a.pending_orders.map (fun o => o.id))
    (hwf : Wf a) :
    Wf { a with
      pending_orders := a.pending_orders.filter (fun o => o.id ≠ j),
      open_positions := upsert_position a.open_positions pos,
      balance := b } := by
  subst hj
  have hdisj : (a.pending_orders.map (fun o => o.id)).Disjoint
      (a.open_positions.map (fun p => p.order_id)) :=
    List.disjoint_of_nodup_append hwf.1
  have hjQ : pos.order_id ∉ a.open_positions.map (fun p => p.order_id) :=
    fun hmem => hdisj hjP hmem
  have hany : (a.open_positions.any (fun q => q.order_id = pos.order_id)) = false := by
    rw [List.any_eq_false]
    intro q hq
    simp only [decide_eq_true_eq]
    intro hcontra
    exact hjQ (List.mem_map.mpr ⟨q, hq, hcontra⟩)
  have hup : upsert_position a.open_positions pos = a.open_positions ++ [pos] := by
    unfold upsert_position
    rw [if_neg (by simp [hany])]
  have hPnodup : (a.pending_orders.map (fun o => o.id)).Nodup :=
    List.Nodup.of_append_left hwf.1
  have hQnodup : (a.open_positions.map (fun p => p.order_id)).Nodup :=
    List.Nodup.of_append_right hwf.1
  constructor
  · show ((a.pending_orders.filter (fun o => o.id ≠ pos.order_id)).map (fun o => o.id)
      ++ (upsert_position a.open_positions pos).map (fun q => q.order_id)).Nodup
    rw [hup, List.map_append]
    rw [List.nodup_append]
    refine ⟨((List.filter_sublist _).map _).nodup hPnodup, ?_, ?_⟩
    · rw [List.nodup_append]
      refine ⟨hQnodup, by simp, ?_⟩
      intro x hx
      simp only [List.map_cons, List.map_nil, List.mem_singleton]
      intro hcontra
      exact hjQ (hcontra ▸ hx)
    · intro x hx
      rcases List.mem_map.mp hx with ⟨o, ho, rfl⟩
      have hmemf := List.mem_filter.mp ho
      have hne : o.id ≠ pos.order_id := by simpa using hmemf.2
      intro hmem
      rcases List.mem_append.mp hmem with hmem | hmem
      · exact hdisj (List.mem_map.mpr ⟨o, hmemf.1, rfl⟩) hmem
      · simp only [List.map_cons, List.map_nil, List.mem_singleton] at hmem
        exact hne hmem
  · intro i hi
    show i ≤ a.order_counter
    unfold Account.keyIds at hi
    simp only at hi
    rw [hup, List.map_append] at hi
    rcases List.mem_append.mp hi with hi | hi
    · rcases List.mem_map.mp hi with ⟨o, ho, rfl⟩
      exact hwf.2 _ (List.mem_append_left _
        (List.mem_map.mpr ⟨o, (List.mem_filter.mp ho).1, rfl⟩))
    · rcases List.mem_append.mp hi with hi | hi
      · exact hwf.2 _ (List.mem_append_right _ hi)
      · simp only [List.map_cons, List.map_nil, List.mem_singleton] at hi
        subst hi
        exact hwf.2 _ (List.mem_append_left _ hjP)

theorem fill_order_wf (a : Account) (j : ℕ) (fp now : ℚ) (hwf : Wf a) :
    Wf (fill_order a j fp now) := by
  unfold fill_order
  cases hf : a.pending_orders.find? (fun o => o.id = j) with
  | none => exact hwf
  | some order =>
    have horder : order ∈ a.pending_orders := List.mem_of_find?_eq_some hf
    have hoid : order.id = j := by simpa using List.find?_some hf
    have hjP : j ∈ a.pending_orders.map (fun o => o.id) :=
      List.mem_map.mpr ⟨order, horder, hoid⟩
    dsimp only
    refine wf_fill_update a _ _ j rfl ?_ hwf
    exact hoid ▸ hjP

theorem pending_order_step_wf (cp now : ℚ) (acc : Account)
    (oa : Order × OrderAction) (hwf : Wf acc) :
    Wf (pending_order_step cp now acc oa) := by
  rcases oa with ⟨y, act⟩
  cases act with
  | FILL => exact fill_order_wf acc y.id cp now hwf
  | CANCEL r =>
    simp only [pending_order_step]
    split
    · refine wf_of_sublist _ acc ?_ rfl hwf
      unfold Account.keyIds
      exact List.Sublist.append ((List.filter_sublist _).map _) (List.Sublist.refl _)
    · exact hwf

theorem foldl_pending_step_wf (cp now : ℚ) (acts : List (Order × OrderAction))
    (acc : Account) (hwf : Wf acc) :
    Wf (acts.foldl (pending_order_step cp now) acc) := by
  induction acts generalizing acc with
  | nil => exact hwf
  | cons hd tl ih => exact ih _ (pending_order_step_wf cp now acc hd hwf)

theorem check_pending_orders_wf (a : Account) (s : String) (cp now : ℚ)
    (hwf : Wf a) : Wf (check_pending_orders a s cp now) := by
  unfold check_pending_orders
  have hids : (a.pending_orders.map (fun o =>
      if o.symbol = s then { o with current_price := cp } else o)).map (fun o => o.id)
      = a.pending_orders.map (fun o => o.id) := by
    rw [List.map_map]
    apply List.map_congr_left
    intro x hx
    by_cases hxs : x.symbol = s <;> simp [hxs]
  have hwf' : Wf { a with pending_orders := a.pending_orders.map (fun o =>
      if o.symbol = s then { o with current_price := cp } else o) } := by
    constructor
    · show ((a.pending_orders.map (fun o =>
        if o.symbol = s then { o with current_price := cp } else o)).map (fun o => o.id)
        ++ a.open_positions.map (fun p => p.order_id)).Nodup
      rw [hids]
      exact hwf.1
    · intro i hi
      show i ≤ a.order_counter
      unfold Account.keyIds at hi
      simp only at hi
      rw [hids] at hi
      exact hwf.2 i hi
  exact foldl_pending_step_wf cp now _ _ hwf'

end TradingBot

namespace TradingBot

theorem applyEvent_wf (a : Account) (e : LedgerEvent) (hwf : Wf a) :
    Wf (applyEvent a e) := by
  cases e with
  | placeLimit p => exact place_limit_order_wf a _ _ _ _ _ _ _ _ _ _ _ hwf
  | placeMarket p => exact place_market_order_wf a _ _ _ _ _ _ _ _ _ _ _ hwf
  | checkPositions s price now => exact check_positions_wf a s price now hwf
  | checkPendingOrders s price now => exact check_pending_orders_wf a s price now hwf

theorem applyEvent_balance (a : Account) (e : LedgerEvent) (hwf : Wf a) :
    (applyEvent a e).balance = a.balance + pnlOf a e - feesOf a e ∧
    sumPnl (applyEvent a e).trade_history = sumPnl a.trade_history + pnlOf a e := by
  cases e with
  | placeLimit p =>
    simp only [applyEvent, pnlOf, feesOf, place_limit_order]
    split <;> simp
  | placeMarket p =>
    simp only [applyEvent, pnlOf, feesOf, place_market_order]
    split_ifs <;> simp
  | checkPositions s price now =>
    exact check_positions_balance a s price now (List.Nodup.of_append_right hwf.1)
  | checkPendingOrders s price now =>
    constructor
    · show (check_pending_orders a s price now).balance = _
      rw [check_pending_orders_balance a s price now
        (List.Nodup.of_append_left hwf.1)]
      simp [pnlOf]
    · show sumPnl (check_pending_orders a s price now).trade_history = _
      rw [check_pending_orders_trade_history]
      simp [pnlOf]

theorem close_position_initial (a : Account) (j : ℕ) (cp : ℚ) (r : String) :
    (close_position a j cp r).initial_balance = a.initial_balance := by
  unfold close_position
  cases hf : a.open_positions.find? (fun p => p.order_id = j) <;> simp

theorem check_positions_initial (a : Account) (s : String) (cp now : ℚ) :
    (check_positions a s cp now).initial_balance = a.initial_balance := by
  unfold check_positions
  generalize positions_to_close a s cp now = l
  induction l generalizing a with
  | nil => rfl
  | cons hd tl ih =>
    rw [List.foldl_cons, ih]
    exact close_position_initial _ _ _ _

theorem fill_order_initial (a : Account) (j : ℕ) (fp now : ℚ) :
    (fill_order a j fp now).initial_balance = a.initial_balance := by
  unfold fill_order
  cases hf : a.pending_orders.find? (fun o => o.id = j) <;> simp

theorem pending_order_step_initial (cp now : ℚ) (acc : Account)
    (oa : Order × OrderAction) :
    (pending_order_step cp now acc oa).initial_balance = acc.initial_balance := by
  rcases oa with ⟨y, act⟩
  cases act with
  | FILL => exact fill_order_initial acc y.id cp now
  | CANCEL r =>
    simp only [pending_order_step]
    split <;> simp

theorem foldl_pending_step_initial (cp now : ℚ)
    (acts : List (Order × OrderAction)) (acc : Account) :
    (acts.foldl (pending_order_step cp now) acc).initial_balance
      = acc.initial_balance := by
  induction acts generalizing acc with
  | nil => rfl
  | cons hd tl ih =>
    rw [List.foldl_cons, ih]
    exact pending_order_step_initial cp now acc hd

theorem check_pending_orders_initial (a : Account) (s : String) (cp now : ℚ) :
    (check_pending_orders a s cp now).initial_balance = a.initial_balance := by
  unfold check_pending_orders
  exact foldl_pending_step_initial cp now _ _

theorem applyEvent_initial (a : Account) (e : LedgerEvent) :
    (applyEvent a e).initial_balance = a.initial_balance := by
  cases e with
  | placeLimit p =>
    simp only [applyEvent, place_limit_order]
    split <;> simp
  | placeMarket p =>
    simp only [applyEvent, place_market_order]
    split <;> simp
  | checkPositions s price now => exact check_positions_initial a s price now
  | checkPendingOrders s price now => exact check_pending_orders_initial a s price now

theorem applyEvents_invariant (a : Account) (es : List LedgerEvent) (hwf : Wf a) :
    (applyEvents a es).balance - sumPnl (applyEvents a es).trade_history
      = a.balance - sumPnl a.trade_history - totalFees a es ∧
    (applyEvents a es).initial_balance = a.initial_balance := by
  induction es generalizing a with
  | nil => simp [applyEvents, totalFees]
  | cons e t ih =>
    have hbal := applyEvent_balance a e hwf
    have hih := ih (applyEvent a e) (applyEvent_wf a e hwf)
    unfold applyEvents at hih ⊢
    rw [List.foldl_cons]
    have htf : totalFees a (e :: t) = feesOf a e + totalFees (applyEvent a e) t := rfl
    constructor
    · rw [hih.1, hbal.1, hbal.2, htf]
      ring
    · rw [hih.2, applyEvent_initial]

end TradingBot

namespace TradingBot

/-- C4.  After any sequence of ledger operations starting from a fresh
account, the balance equals `initial_balance` plus the sum of the realized
`pnl` over all closed trades minus the sum of every commission debited
(taker fee on market-order creation, maker fee on limit fill, closing fee on
close). -/
theorem balance_equals_initial_plus_pnl_minus_fees (ib lev : ℚ)
    (es : List LedgerEvent) :
    (applyEvents (mkAccount ib lev) es).balance
      = (applyEvents (mkAccount ib lev) es).initial_balance
        + sumPnl (applyEvents (mkAccount ib lev) es).trade_history
        - totalFees (mkAccount ib lev) es := by
  have h := applyEvents_invariant (mkAccount ib lev) es (wf_mkAccount ib lev)
  have h1 := h.1
  have hb : (mkAccount ib lev).balance = ib := rfl
  have ht : sumPnl (mkAccount ib lev).trade_history = 0 := rfl
  have hi : (mkAccount ib lev).initial_balance = ib := rfl
  rw [hb, ht] at h1
  rw [h.2, hi]
  linarith [h1]

end TradingBot
